import Mathlib

set_option maxRecDepth 100000

/-!
# Verification of the consistent-hashing shard manager

A shallow embedding, in Lean 4, of `src/consistent_hashing/manager/shard_manager.py`
and `src/consistent_hashing/manager/data_store.py`, together with theorems settling
the specification claims about hash-ring resolution, rebalancing, and error handling.

Modelling conventions:
* Python `dict`s (insertion-ordered, unique keys) are association lists with
  `dlookup` / `dinsert` / `derase` mirroring `d[k]`, `d[k] = v`, `del d[k]`.
* The CSV-file-per-node storage is a finite map from file path to the list of
  data rows (a row is the list of its cell strings, schema `[id, data, created_at]`).
  `pd.read_csv` on a missing file raises `FileNotFoundError`; operations that read
  without a `try` block therefore return `Except Err _` with `Err.fileNotFound`.
* A Python method that raises before mutating anything is modelled as returning
  `.error e`; a method that completes is modelled as returning `.ok` with the new
  state.  Every `raise` site in the source is reached before any mutation of the
  ring maps or the file system, which is what makes this translation exact.
* `hashlib.sha256(data.encode("utf-8"))` is implemented bit-for-bit
  (`sha256Nat`, `utf8`); `int(h.hexdigest(), 16)` is the digest read as a
  big-endian natural number.
* `bisect.bisect_left(a, x)` on the sorted list `a` is the number of elements
  of `a` that are `< x`; `sorted(…)` is `List.insertionSort (· ≤ ·)`.
* Store writes performed by the rebalancing loops are additionally logged as an
  event trace (`Ev.ins` / `Ev.del`) so that ordering claims about the migration
  protocol can be stated; the trace has no influence on the computed state.
-/

/-! ## SHA-256 -/

/-- 2^32, the word modulus of SHA-256. -/
def w32 : Nat := 4294967296

/-- Right rotation of a 32-bit word. -/
def rotr32 (x n : Nat) : Nat := ((x >>> n) ||| (x <<< (32 - n))) % w32

/-- SHA-256 round constants (fractional parts of cube roots of the first 64 primes). -/
def shaK : List Nat := [1116352408, 1899447441, 3049323471, 3921009573, 961987163, 1508970993, 2453635748, 2870763221, 3624381080, 310598401, 607225278, 1426881987, 1925078388, 2162078206, 2614888103, 3248222580, 3835390401, 4022224774, 264347078, 604807628, 770255983, 1249150122, 1555081692, 1996064986, 2554220882, 2821834349, 2952996808, 3210313671, 3336571891, 3584528711, 113926993, 338241895, 666307205, 773529912, 1294757372, 1396182291, 1695183700, 1986661051, 2177026350, 2456956037, 2730485921, 2820302411, 3259730800, 3345764771, 3516065817, 3600352804, 4094571909, 275423344, 430227734, 506948616, 659060556, 883997877, 958139571, 1322822218, 1537002063, 1747873779, 1955562222, 2024104815, 2227730452, 2361852424, 2428436474, 2756734187, 3204031479, 3329325298]

/-- SHA-256 initial hash state. -/
def shaH0 : List Nat := [1779033703, 3144134277, 1013904242, 2773480762, 1359893119, 2600822924, 528734635, 1541459225]

/-- Big-endian byte expansion of `n`, `k` bytes wide. -/
def beBytes (k n : Nat) : List Nat :=
  match k with
  | 0 => []
  | k + 1 => beBytes k (n / 256) ++ [n % 256]

/-- SHA-256 padding: append `0x80`, zeros to 56 mod 64, then the bit length. -/
def shaPad (msg : List Nat) : List Nat :=
  msg ++ 128 :: List.replicate ((55 + 64 - msg.length % 64) % 64) 0 ++ beBytes 8 (msg.length * 8)

/-- Combine each 4 consecutive bytes (big-endian) into a 32-bit word. -/
def bytesToWords : List Nat → List Nat
  | b0 :: b1 :: b2 :: b3 :: rest => (((b0 * 256 + b1) * 256 + b2) * 256 + b3) :: bytesToWords rest
  | _ => []

/-- Extend the 16-word message schedule by `n` further words. -/
def shaExtend : Nat → List Nat → List Nat
  | 0, acc => acc
  | n + 1, acc =>
    let l := acc.length
    let w15 := acc.getD (l - 15) 0
    let w2 := acc.getD (l - 2) 0
    let s0 := (rotr32 w15 7) ^^^ (rotr32 w15 18) ^^^ (w15 >>> 3)
    let s1 := (rotr32 w2 17) ^^^ (rotr32 w2 19) ^^^ (w2 >>> 10)
    shaExtend n (acc ++ [(acc.getD (l - 16) 0 + s0 + acc.getD (l - 7) 0 + s1) % w32])

/-- One round of the SHA-256 compression function (`w32 - 1 - e` is bitwise not of `e`). -/
def shaRound (st : List Nat) (kw : Nat) : List Nat :=
  match st with
  | [a, b, c, d, e, f, g, h] =>
    let S1 := (rotr32 e 6) ^^^ (rotr32 e 11) ^^^ (rotr32 e 25)
    let ch := (e &&& f) ^^^ ((w32 - 1 - e) &&& g)
    let t1 := (h + S1 + ch + kw) % w32
    let S0 := (rotr32 a 2) ^^^ (rotr32 a 13) ^^^ (rotr32 a 22)
    let maj := (a &&& b) ^^^ (a &&& c) ^^^ (b &&& c)
    let t2 := (S0 + maj) % w32
    [(t1 + t2) % w32, a, b, c, (d + t1) % w32, e, f, g]
  | st => st

/-- Process one 64-byte chunk of the padded message. -/
def shaChunk (h : List Nat) (chunk : List Nat) : List Nat :=
  let ws := shaExtend 48 (bytesToWords chunk)
  let st := (shaK.zip ws).foldl (fun st kw => shaRound st (kw.1 + kw.2)) h
  (h.zip st).map (fun p => (p.1 + p.2) % w32)

/-- Split a list into chunks of 64 (fuel-based so that the kernel can reduce it). -/
def chunks64Aux : Nat → List Nat → List (List Nat)
  | 0, _ => []
  | _, [] => []
  | fuel + 1, l => l.take 64 :: chunks64Aux fuel (l.drop 64)

/-- Split a list into chunks of 64. -/
def chunks64 (l : List Nat) : List (List Nat) := chunks64Aux l.length l

/-- SHA-256 digest of a byte string, read as a 256-bit natural number: the value
Python computes as `int(hashlib.sha256(data).hexdigest(), 16)`. -/
def sha256Nat (msg : List Nat) : Nat :=
  let hs := (chunks64 (shaPad msg)).foldl shaChunk shaH0
  hs.foldl (fun acc h => acc * w32 + h) 0

/-- UTF-8 encoding of a single character. -/
def utf8Char (c : Char) : List Nat :=
  let n := c.toNat
  if n < 128 then [n]
  else if n < 2048 then [192 + n / 64, 128 + n % 64]
  else if n < 65536 then [224 + n / 4096, 128 + n / 64 % 64, 128 + n % 64]
  else [240 + n / 262144, 128 + n / 4096 % 64, 128 + n / 64 % 64, 128 + n % 64]

/-- UTF-8 encoding of a string: what Python's `str.encode("utf-8")` yields. -/
def utf8 (s : String) : List Nat := s.data.flatMap utf8Char

/-! ## Python dicts as association lists -/

/-- `d.get(k)` / `k in d`: first-match lookup in an association list. -/
def dlookup {α β : Type} [DecidableEq α] : List (α × β) → α → Option β
  | [], _ => none
  | (k, v) :: rest, key => if k = key then some v else dlookup rest key

/-- `d[k] = v`: replace the value in place if the key is present, else append. -/
def dinsert {α β : Type} [DecidableEq α] : List (α × β) → α → β → List (α × β)
  | [], key, val => [(key, val)]
  | (k, v) :: rest, key, val =>
    if k = key then (k, val) :: rest else (k, v) :: dinsert rest key val

/-- `del d[k]`: remove the (unique) entry with the given key. -/
def derase {α β : Type} [DecidableEq α] : List (α × β) → α → List (α × β)
  | [], _ => []
  | (k, v) :: rest, key => if k = key then rest else (k, v) :: derase rest key

/-- `d.values()`. -/
def dvalues {α β : Type} (m : List (α × β)) : List β := m.map Prod.snd

/-! ## Shared data model -/

/-- A CSV data row: the list of its cell strings. -/
abbrev Row := List String

/-- The file system: file path → rows currently stored in that CSV file. -/
abbrev FS := List (String × List Row)

/-- `schema = ["id", "data", "created_at"]` (module-level constant of the source). -/
def schema : List String := ["id", "data", "created_at"]

/-- The error kinds of the source, one per distinct `raise` site
(`ValueError` messages) plus the `FileNotFoundError` / `KeyError` that Python
built-ins raise when a file or dict key is absent. -/
inductive Err where
  | emptyRing
  | duplicateNode
  | unknownNode
  | lastNodeRemoval
  | schemaMismatch
  | fileNotFound
  | keyError
  deriving DecidableEq

/-- A store-write event: a row-insert or a delete-by-id against one node's file. -/
inductive Ev where
  | ins (id node : String)
  | del (id node : String)
  deriving DecidableEq

/-! ## ShardManager -/

/-- The mutable state of a `ShardManager` instance: the two ring dicts and the
`max_limit` field set by `__init__` (the logger carries no program state). -/
structure ShardManager where
  shards_to_idx : List (String × Nat)
  idx_to_shards : List (Nat × String)
  max_limit : Nat
  deriving DecidableEq

namespace ShardManager

/-- `ShardManager.__init__`. -/
def init : ShardManager := { shards_to_idx := [], idx_to_shards := [], max_limit := 10000 }

/-- `_hash`: `int(hashlib.sha256(data.encode("utf-8")).hexdigest(), 16) % self.max_limit`. -/
def _hash (sm : ShardManager) (data : String) : Nat :=
  sha256Nat (utf8 data) % sm.max_limit

/-- `_get_node_config`: the node's CSV file path. -/
def _get_node_config (node_name : String) : String :=
  if List.isSuffixOf ".csv".data node_name.data then node_name else node_name ++ ".csv"

/-- `_create_node`: write an empty CSV (header only) at the node's path. -/
def _create_node (fs : FS) (node_name : String) : FS :=
  dinsert fs (_get_node_config node_name) []

/-- `_delete_node`: remove the node's file; a missing file is only logged. -/
def _delete_node (fs : FS) (node_name : String) : FS :=
  derase fs (_get_node_config node_name)

/-- `bisect.bisect_left(a, x)` for a sorted list `a`: the leftmost insertion
point, i.e. the number of elements `< x`. -/
def bisect_left (a : List Nat) (x : Nat) : Nat :=
  a.countP (fun v => decide (v < x))

/-- `_find_closest_next_node_for_hash`: raise if the ring is empty; otherwise
binary-search the sorted position list, wrap past the end, and look the
position up in `idx_to_shards`. -/
def _find_closest_next_node_for_hash (sm : ShardManager) (hash : Nat) : Except Err String :=
  if sm.shards_to_idx.isEmpty then .error .emptyRing
  else
    let all_indices := List.insertionSort (· ≤ ·) (dvalues sm.shards_to_idx)
    let i := bisect_left all_indices hash
    let nearest_node_idx := if i = all_indices.length then 0 else i
    let nearest_node_hash := all_indices.getD nearest_node_idx 0
    match dlookup sm.idx_to_shards nearest_node_hash with
    | some nearest_node => .ok nearest_node
    | none => .error .keyError

/-- `_find_closest_next_node_for_key`: hash the key, then resolve. -/
def _find_closest_next_node_for_key (sm : ShardManager) (query_key : String) : Except Err String :=
  _find_closest_next_node_for_hash sm (_hash sm query_key)

/-- `_read_all_data`: read the node's rows; a missing file yields the empty frame. -/
def _read_all_data (fs : FS) (node_name : String) : List Row :=
  match dlookup fs (_get_node_config node_name) with
  | some rows => rows
  | none => []

/-- `_get_by_id_from_node`: read (no `try`: a missing file raises) and filter by id. -/
def _get_by_id_from_node (fs : FS) (id node_name : String) : Except Err (List Row) :=
  match dlookup fs (_get_node_config node_name) with
  | some rows => .ok (rows.filter (fun r => r.headD "" == id))
  | none => .error .fileNotFound

/-- `_insert_data_to_node`: read (no `try`), append the row, write back. -/
def _insert_data_to_node (fs : FS) (data : Row) (node_name : String) : Except Err FS :=
  match dlookup fs (_get_node_config node_name) with
  | some rows => .ok (dinsert fs (_get_node_config node_name) (rows ++ [data]))
  | none => .error .fileNotFound

/-- `_delete_by_id_from_node`: read (no `try`), drop all rows with the id, write back. -/
def _delete_by_id_from_node (fs : FS) (id node_name : String) : Except Err FS :=
  match dlookup fs (_get_node_config node_name) with
  | some rows => .ok (dinsert fs (_get_node_config node_name) (rows.filter (fun r => ¬ r.headD "" == id)))
  | none => .error .fileNotFound

/-- `get_data`: resolve the owner of the id, then filter its rows. -/
def get_data (sm : ShardManager) (fs : FS) (id : String) : Except Err (List Row) := do
  let node_name ← _find_closest_next_node_for_key sm id
  _get_by_id_from_node fs id node_name

/-- `insert_data`: schema-length check, resolve the owner by `data[0]`, append. -/
def insert_data (sm : ShardManager) (fs : FS) (data : Row) : Except Err (FS × List Ev) :=
  if data.length ≠ schema.length then .error .schemaMismatch
  else do
    let id := data.headD ""
    let node_name ← _find_closest_next_node_for_key sm id
    let fs' ← _insert_data_to_node fs data node_name
    .ok (fs', [.ins id node_name])

/-- `delete_data`: resolve the owner of the id, drop all its rows there. -/
def delete_data (sm : ShardManager) (fs : FS) (id : String) : Except Err (FS × List Ev) := do
  let node_name ← _find_closest_next_node_for_key sm id
  let fs' ← _delete_by_id_from_node fs id node_name
  .ok (fs', [.del id node_name])

/-- The first loop of `_rebalance_data_on_node_addition`: for each row of the
clockwise successor, re-resolve its id; rows that no longer resolve to the
successor are re-inserted through `insert_data` and their ids collected. -/
def addMoveLoop (sm : ShardManager) (next_node : String) :
    List Row → FS → Except Err (FS × List String × List Ev)
  | [], fs => .ok (fs, [], [])
  | item :: rest, fs => do
    let item_node ← _find_closest_next_node_for_key sm (item.headD "")
    if item_node = next_node then
      addMoveLoop sm next_node rest fs
    else do
      let (fs', ev) ← insert_data sm fs item
      let (fs'', to_delete, evs) ← addMoveLoop sm next_node rest fs'
      .ok (fs'', item.headD "" :: to_delete, ev ++ evs)

/-- The trailing loop of both rebalance functions: delete each collected id
from the scanned node. -/
def deleteLoop (node : String) : List String → FS → Except Err (FS × List Ev)
  | [], fs => .ok (fs, [])
  | id :: rest, fs => do
    let fs' ← _delete_by_id_from_node fs id node
    let (fs'', evs) ← deleteLoop node rest fs'
    .ok (fs'', .del id node :: evs)

/-- `_rebalance_data_on_node_addition` (called with the new node already in the
ring): scan the node clockwise of the new node's position and migrate the rows
it no longer owns — all inserts first, then all deletes. -/
def _rebalance_data_on_node_addition (sm : ShardManager) (fs : FS) (node_name : String) :
    Except Err (FS × List Ev) := do
  let new_node_hash := _hash sm node_name
  let next_node ← _find_closest_next_node_for_hash sm ((new_node_hash + 1) % sm.max_limit)
  let all_data := _read_all_data fs next_node
  let (fs1, to_delete, tr1) ← addMoveLoop sm next_node all_data fs
  let (fs2, tr2) ← deleteLoop next_node to_delete fs1
  .ok (fs2, tr1 ++ tr2)

/-- The first loop of `_rebalance_data_on_node_removal`: move every row of the
departing node to its clockwise successor, collecting the ids. -/
def removalMoveLoop (next_node : String) :
    List Row → FS → Except Err (FS × List String × List Ev)
  | [], fs => .ok (fs, [], [])
  | item :: rest, fs => do
    let fs' ← _insert_data_to_node fs item next_node
    let (fs'', to_delete, evs) ← removalMoveLoop next_node rest fs'
    .ok (fs'', item.headD "" :: to_delete, .ins (item.headD "") next_node :: evs)

/-- `_rebalance_data_on_node_removal` (called with the departing node still in
the ring): guard against removing the last node, then move every row of the
departing node to the successor of its position — all inserts first, then all
deletes. -/
def _rebalance_data_on_node_removal (sm : ShardManager) (fs : FS) (node_name : String) :
    Except Err (FS × List Ev) :=
  if sm.shards_to_idx.length ≤ 1 then .error .lastNodeRemoval
  else do
    let all_data := _read_all_data fs node_name
    let current_node_hash := _hash sm node_name
    let next_node ← _find_closest_next_node_for_hash sm ((current_node_hash + 1) % sm.max_limit)
    let (fs1, to_delete, tr1) ← removalMoveLoop next_node all_data fs
    let (fs2, tr2) ← deleteLoop node_name to_delete fs1
    .ok (fs2, tr1 ++ tr2)

/-- `add_node`: reject a duplicate name, enter the node in both ring dicts,
create its file, then rebalance (`visualize_ring` only logs). -/
def add_node (sm : ShardManager) (fs : FS) (node_name : String) :
    Except Err (ShardManager × FS × List Ev) :=
  if (dlookup sm.shards_to_idx node_name).isSome then .error .duplicateNode
  else
    let node_hash := _hash sm node_name
    let sm' : ShardManager :=
      { shards_to_idx := dinsert sm.shards_to_idx node_name node_hash
        idx_to_shards := dinsert sm.idx_to_shards node_hash node_name
        max_limit := sm.max_limit }
    let fs1 := _create_node fs node_name
    do
      let (fs2, tr) ← _rebalance_data_on_node_addition sm' fs1 node_name
      .ok (sm', fs2, tr)

/-- `remove_node`: reject an unknown name, rebalance while the node is still in
the ring, then delete its ring entries and its file. -/
def remove_node (sm : ShardManager) (fs : FS) (node_name : String) :
    Except Err (ShardManager × FS × List Ev) :=
  match dlookup sm.shards_to_idx node_name with
  | none => .error .unknownNode
  | some node_hash => do
    let (fs1, tr) ← _rebalance_data_on_node_removal sm fs node_name
    let sm' : ShardManager :=
      { shards_to_idx := derase sm.shards_to_idx node_name
        idx_to_shards := derase sm.idx_to_shards node_hash
        max_limit := sm.max_limit }
    let fs2 := _delete_node fs1 node_name
    .ok (sm', fs2, tr)

end ShardManager

/-! ## DataStore (`data_store.py`) -/

namespace DataStore

/-- `DataStore._get_node_config`. -/
def _get_node_config (node_name : String) : String :=
  if List.isSuffixOf ".csv".data node_name.data then node_name else node_name ++ ".csv"

/-- `DataStore.create_node`: write an empty CSV at the node's path. -/
def create_node (fs : FS) (node_name : String) : FS :=
  dinsert fs (_get_node_config node_name) []

/-- `DataStore.delete_node`: remove the file; `FileNotFoundError` is caught. -/
def delete_node (fs : FS) (node_name : String) : FS :=
  derase fs (_get_node_config node_name)

/-- `DataStore.get_all`: read the node's rows; a missing file is caught and
yields the empty frame. -/
def get_all (fs : FS) (node_name : String) : List Row :=
  match dlookup fs (_get_node_config node_name) with
  | some rows => rows
  | none => []

/-- `DataStore.get_by_id`: read (no `try`: a missing file raises) and filter. -/
def get_by_id (fs : FS) (id node_name : String) : Except Err (List Row) :=
  match dlookup fs (_get_node_config node_name) with
  | some rows => .ok (rows.filter (fun r => r.headD "" == id))
  | none => .error .fileNotFound

/-- `DataStore.insert`: schema-length check, then read (no `try`), append, write. -/
def insert (fs : FS) (data : Row) (node_name : String) : Except Err FS :=
  if data.length ≠ schema.length then .error .schemaMismatch
  else
    match dlookup fs (_get_node_config node_name) with
    | some rows => .ok (dinsert fs (_get_node_config node_name) (rows ++ [data]))
    | none => .error .fileNotFound

/-- `DataStore.delete_by_id`: read (no `try`), drop all rows with the id, write. -/
def delete_by_id (fs : FS) (id node_name : String) : Except Err FS :=
  match dlookup fs (_get_node_config node_name) with
  | some rows => .ok (dinsert fs (_get_node_config node_name) (rows.filter (fun r => ¬ r.headD "" == id)))
  | none => .error .fileNotFound

end DataStore

/-! ## Concrete states used by witnesses and counterexamples

The ring positions appearing below are the program's real ones:
`sha256("NodeA") mod 10000 = 6487`, `sha256("NodeB") mod 10000 = 346`,
`sha256("Node91") mod 10000 = 2360 = sha256("Node145") mod 10000`,
`sha256("A") mod 10000 = 8845`, `sha256("A.csv") mod 10000 = 5108`;
each equality is proved where it is used, by evaluating `sha256Nat`. -/

deriving instance DecidableEq for Except

/-- A one-node cluster: just `NodeA`. -/
def smNodeA : ShardManager :=
  { shards_to_idx := [("NodeA", 6487)], idx_to_shards := [(6487, "NodeA")], max_limit := 10000 }

/-- `NodeA`'s freshly created empty container. -/
def fsNodeA : FS := [("NodeA.csv", [])]

/-- A two-node cluster: `NodeA` at 6487 and `NodeB` at 346. -/
def smNodeAB : ShardManager :=
  { shards_to_idx := [("NodeA", 6487), ("NodeB", 346)],
    idx_to_shards := [(6487, "NodeA"), (346, "NodeB")], max_limit := 10000 }

/-- Containers for `smNodeAB` with one record, id `"hello"` (hash 7620, so it
resolves to `NodeB`), stored on `NodeB`. -/
def fsNodeABhello : FS := [("NodeA.csv", []), ("NodeB.csv", [["hello", "w", "2024-10-01"]])]

/-- Empty containers for `smNodeAB`. -/
def fsNodeAB : FS := [("NodeA.csv", []), ("NodeB.csv", [])]

/-- A one-node cluster: just `Node91`, at position 2360. -/
def smNode91 : ShardManager :=
  { shards_to_idx := [("Node91", 2360)], idx_to_shards := [(2360, "Node91")], max_limit := 10000 }

/-- `Node91`'s container holding one record with id `"rec"`. -/
def fsNode91rec : FS := [("Node91.csv", [["rec", "v", "2024-10-01"]])]

/-- The cluster after `add_node "Node145"` on `smNode91`: `Node145` hashes to
the same position 2360, and the `idx_to_shards` entry has been silently
overwritten to point at `Node145`. -/
def smNode91_145 : ShardManager :=
  { shards_to_idx := [("Node91", 2360), ("Node145", 2360)],
    idx_to_shards := [(2360, "Node145")], max_limit := 10000 }

/-- The containers after that `add_node`: the record is still on `Node91`. -/
def fsNode91_145 : FS := [("Node91.csv", [["rec", "v", "2024-10-01"]]), ("Node145.csv", [])]

/-! ## Reachable program states -/

/-- States reachable from a fresh `ShardManager()` by successful public
operations (a failed call raises and leaves the state unchanged, so only the
successful transitions matter). -/
inductive Reachable : ShardManager → FS → Prop where
  | start : Reachable ShardManager.init []
  | add {sm fs n sm' fs' tr} : Reachable sm fs →
      ShardManager.add_node sm fs n = .ok (sm', fs', tr) → Reachable sm' fs'
  | remove {sm fs n sm' fs' tr} : Reachable sm fs →
      ShardManager.remove_node sm fs n = .ok (sm', fs', tr) → Reachable sm' fs'
  | insert {sm fs d fs' tr} : Reachable sm fs →
      ShardManager.insert_data sm fs d = .ok (fs', tr) → Reachable sm fs'
  | delete {sm fs i fs' tr} : Reachable sm fs →
      ShardManager.delete_data sm fs i = .ok (fs', tr) → Reachable sm fs'

/-- Reachability restricted to `add_node` calls whose backing file is not
already the backing file of a present node (for example, it excludes adding
`"A.csv"` while `"A"` is a member, since both names map to the file
`A.csv`).  `remove_node`, `insert_data` and `delete_data` are unrestricted. -/
inductive ReachableDistinct : ShardManager → FS → Prop where
  | start : ReachableDistinct ShardManager.init []
  | add {sm fs n sm' fs' tr} : ReachableDistinct sm fs →
      (∀ m p, dlookup sm.shards_to_idx m = some p →
        ShardManager._get_node_config m ≠ ShardManager._get_node_config n) →
      ShardManager.add_node sm fs n = .ok (sm', fs', tr) → ReachableDistinct sm' fs'
  | remove {sm fs n sm' fs' tr} : ReachableDistinct sm fs →
      ShardManager.remove_node sm fs n = .ok (sm', fs', tr) → ReachableDistinct sm' fs'
  | insert {sm fs d fs' tr} : ReachableDistinct sm fs →
      ShardManager.insert_data sm fs d = .ok (fs', tr) → ReachableDistinct sm fs'
  | delete {sm fs i fs' tr} : ReachableDistinct sm fs →
      ShardManager.delete_data sm fs i = .ok (fs', tr) → ReachableDistinct sm fs'

/-- The container/ring consistency invariant: both ring dicts have duplicate-free
keys, every position entry points back to a present node, distinct present
nodes have distinct backing files, and every present node's backing file
exists. -/
structure ContInv (sm : ShardManager) (fs : FS) : Prop where
  shards_nodup : (sm.shards_to_idx.map Prod.fst).Nodup
  idx_nodup : (sm.idx_to_shards.map Prod.fst).Nodup
  idx_sub : ∀ h n, dlookup sm.idx_to_shards h = some n → dlookup sm.shards_to_idx n = some h
  config_inj : ∀ n₁ p₁ n₂ p₂, dlookup sm.shards_to_idx n₁ = some p₁ →
    dlookup sm.shards_to_idx n₂ = some p₂ →
    ShardManager._get_node_config n₁ = ShardManager._get_node_config n₂ → n₁ = n₂
  containers : ∀ n p, dlookup sm.shards_to_idx n = some p →
    (dlookup fs (ShardManager._get_node_config n)).isSome

/-- The ring position that `_find_closest_next_node_for_hash` selects among a
collection of positions `V`: the smallest position `≥ k`, wrapping to the
smallest position overall when every position is `< k`.  (Proved equal to the
sorted-`bisect_left` computation in `resolve_spec`.) -/
def targetPos (V : List Nat) (k : Nat) : Option Nat :=
  match (V.filter (fun v => decide (k ≤ v))).min? with
  | some p => some p
  | none => V.min?

/-- All rows stored across the cluster's ring members, in ring-dict order. -/
def clusterRows (sm : ShardManager) (fs : FS) : List Row :=
  (sm.shards_to_idx.map (fun e => ShardManager._read_all_data fs e.1)).flatten

/-- Well-formedness of a cluster state: the invariant that holds in ordinary
operation (and is re-established by `add_node`/`remove_node` under the
freshness hypotheses of the conservation theorem): the two ring dicts are
duplicate-free and mutually inverse, each ring position is the hash of its
node's name, distinct members have distinct backing files, every member's
container exists, and every stored row has the three schema fields and lives
on the node that resolution currently designates for its id. -/
structure WF (sm : ShardManager) (fs : FS) : Prop where
  maxlim : sm.max_limit = 10000
  shards_nodup : (sm.shards_to_idx.map Prod.fst).Nodup
  idx_nodup : (sm.idx_to_shards.map Prod.fst).Nodup
  consistent : ∀ n p, dlookup sm.shards_to_idx n = some p ↔ dlookup sm.idx_to_shards p = some n
  hash_pos : ∀ n p, dlookup sm.shards_to_idx n = some p → p = ShardManager._hash sm n
  config_inj : ∀ n₁ p₁ n₂ p₂, dlookup sm.shards_to_idx n₁ = some p₁ →
    dlookup sm.shards_to_idx n₂ = some p₂ →
    ShardManager._get_node_config n₁ = ShardManager._get_node_config n₂ → n₁ = n₂
  containers : ∀ n p, dlookup sm.shards_to_idx n = some p →
    (dlookup fs (ShardManager._get_node_config n)).isSome
  placement : ∀ n p, dlookup sm.shards_to_idx n = some p →
    ∀ row ∈ ShardManager._read_all_data fs n, row.length = 3 ∧
      ShardManager._find_closest_next_node_for_key sm (row.headD "") = .ok n

/-- `NodeA`'s container holding one record with id `"hello"` (hash 7620). -/
def fsNodeAhello : FS := [("NodeA.csv", [["hello", "w", "2024-10-01"]])]

/-- The one-node cluster `{"A"}` (position 8845); its file is `A.csv`. -/
def smJustA : ShardManager :=
  { shards_to_idx := [("A", 8845)], idx_to_shards := [(8845, "A")], max_limit := 10000 }

/-- The two-node cluster `{"A", "A.csv"}`: both names map to the file `A.csv`. -/
def smA_Acsv : ShardManager :=
  { shards_to_idx := [("A", 8845), ("A.csv", 5108)],
    idx_to_shards := [(8845, "A"), (5108, "A.csv")], max_limit := 10000 }

/-- The cluster after `remove_node "A"`: only `"A.csv"` remains in the ring,
but the shared backing file `A.csv` has been deleted. -/
def smOnlyAcsv : ShardManager :=
  { shards_to_idx := [("A.csv", 5108)], idx_to_shards := [(5108, "A.csv")], max_limit := 10000 }

/-! ## General lemmas about the dict model and `Except` -/

theorem except_bind_ok {ε α β : Type} {x : Except ε α} {f : α → Except ε β} {b : β} :
    (x >>= f) = .ok b ↔ ∃ a, x = .ok a ∧ f a = .ok b := by
  cases x <;> simp [Bind.bind, Except.bind]

theorem except_bind_error {ε α β : Type} {x : Except ε α} {f : α → Except ε β} {e : ε} :
    x = .error e → (x >>= f) = .error e := by
  rintro rfl; rfl

theorem derase_of_dlookup_none {α β : Type} [DecidableEq α] {m : List (α × β)} {k : α}
    (h : dlookup m k = none) : derase m k = m := by
  induction m with
  | nil => rfl
  | cons e rest ih =>
    obtain ⟨a, b⟩ := e
    by_cases hk : a = k
    · simp [dlookup, hk] at h
    · simp only [dlookup, if_neg hk] at h
      simp [derase, hk, ih h]

/-! ## C8: schema enforcement -/

/-- C8: an `insert_data` whose record does not have exactly the three schema
fields fails with the schema-mismatch error, uniformly in the ring state and
the file system: in particular no owner node is resolved and no node's stored
records change. -/
theorem C8_schema_mismatch_no_io (sm : ShardManager) (fs : FS) (data : Row)
    (h : data.length ≠ 3) :
    ShardManager.insert_data sm fs data = .error .schemaMismatch := by
  simp [ShardManager.insert_data, schema, h]

/-- C8 witness: a two-field record is rejected on a live one-node cluster. -/
theorem C8_schema_mismatch_no_io_witness :
    ShardManager.insert_data smNodeA fsNodeA ["id1", "payload1"] = .error .schemaMismatch :=
  C8_schema_mismatch_no_io smNodeA fsNodeA ["id1", "payload1"] (by decide)

/-! ## C6: operations on the empty ring -/

/-- C6: with zero nodes in the ring, `get_data`, `insert_data` (on a
three-field record, the `Record` shape of the data model), and `delete_data`
each fail with the empty-ring error, for every file system — the resolution
failure precedes any store I/O. -/
theorem C6_empty_ring_errors (sm : ShardManager) (fs : FS) (id : String) (data : Row)
    (hring : sm.shards_to_idx = []) (hdata : data.length = 3) :
    ShardManager.get_data sm fs id = .error .emptyRing ∧
    ShardManager.insert_data sm fs data = .error .emptyRing ∧
    ShardManager.delete_data sm fs id = .error .emptyRing := by
  have hres : ∀ k, ShardManager._find_closest_next_node_for_key sm k = .error .emptyRing := by
    intro k
    simp [ShardManager._find_closest_next_node_for_key,
      ShardManager._find_closest_next_node_for_hash, hring]
  refine ⟨?_, ?_, ?_⟩
  · rw [ShardManager.get_data]
    exact except_bind_error (hres id)
  · rw [ShardManager.insert_data, if_neg (by simp [schema, hdata])]
    exact except_bind_error (hres (data.headD ""))
  · rw [ShardManager.delete_data]
    exact except_bind_error (hres id)

/-- C6 witness: the three operations on a fresh (empty) manager. -/
theorem C6_empty_ring_errors_witness :
    ShardManager.get_data ShardManager.init [] "x" = .error .emptyRing ∧
    ShardManager.insert_data ShardManager.init [] ["id1", "payload1", "2025-01-01"] = .error .emptyRing ∧
    ShardManager.delete_data ShardManager.init [] "x" = .error .emptyRing :=
  C6_empty_ring_errors ShardManager.init [] "x" ["id1", "payload1", "2025-01-01"] rfl (by decide)

/-! ## C5: precondition failures have no partial effect -/

/-- C5: each ring-invariant violation is detected before any mutation: the
duplicate-name `add_node`, the unknown-name `remove_node`, and the last-node
`remove_node` return their respective errors without producing any updated
ring or store (the embedding's `.error` results carry no state, which is
faithful because every corresponding `raise` in the source fires before the
first mutation of the ring dicts or the files). -/
theorem C5_no_partial_effect (sm : ShardManager) (fs : FS) (name : String) :
    ((dlookup sm.shards_to_idx name).isSome →
        ShardManager.add_node sm fs name = .error .duplicateNode) ∧
    (dlookup sm.shards_to_idx name = none →
        ShardManager.remove_node sm fs name = .error .unknownNode) ∧
    (∀ p, dlookup sm.shards_to_idx name = some p → sm.shards_to_idx.length ≤ 1 →
        ShardManager.remove_node sm fs name = .error .lastNodeRemoval) := by
  refine ⟨fun h => ?_, fun h => ?_, fun p hp hlen => ?_⟩
  · simp [ShardManager.add_node, h]
  · simp [ShardManager.remove_node, h]
  · rw [ShardManager.remove_node, hp]
    exact except_bind_error (by
      simp [ShardManager._rebalance_data_on_node_removal, hlen])

/-- C5 witness: all three failures on concrete clusters (`NodeA` present once;
`NodeX` absent; `NodeA` is the last node). -/
theorem C5_no_partial_effect_witness :
    ShardManager.add_node smNodeA fsNodeA "NodeA" = .error .duplicateNode ∧
    ShardManager.remove_node smNodeA fsNodeA "NodeX" = .error .unknownNode ∧
    ShardManager.remove_node smNodeA fsNodeA "NodeA" = .error .lastNodeRemoval :=
  ⟨(C5_no_partial_effect smNodeA fsNodeA "NodeA").1 (by decide),
   (C5_no_partial_effect smNodeA fsNodeA "NodeX").2.1 (by decide),
   (C5_no_partial_effect smNodeA fsNodeA "NodeA").2.2 6487 (by decide) (by decide)⟩

/-! ## C7: operations against a missing container -/

/-- C7 counterexample: with no container for the node, the record-level delete
and the by-id read both fail with `FileNotFoundError` (the `pd.read_csv` calls
in `get_by_id` and `delete_by_id` have no `try` block), contradicting the
claim that every read and delete against a missing container is tolerated. -/
theorem C7_counterexample :
    DataStore.delete_by_id [] "x" "Missing" = .error .fileNotFound ∧
    DataStore.get_by_id [] "x" "Missing" = .error .fileNotFound := ⟨rfl, rfl⟩

/-- C7 amended: against a missing container, `get_all` returns the empty
result and the container-level `delete_node` is tolerated as a no-op, but
`get_by_id` and `delete_by_id` raise `FileNotFoundError`. -/
theorem C7_missing_container_behaviour (fs : FS) (id node_name : String)
    (h : dlookup fs (DataStore._get_node_config node_name) = none) :
    DataStore.get_all fs node_name = [] ∧
    DataStore.delete_node fs node_name = fs ∧
    DataStore.get_by_id fs id node_name = .error .fileNotFound ∧
    DataStore.delete_by_id fs id node_name = .error .fileNotFound := by
  refine ⟨?_, ?_, ?_, ?_⟩
  · simp [DataStore.get_all, h]
  · rw [DataStore.delete_node]
    exact derase_of_dlookup_none h
  · simp [DataStore.get_by_id, h]
  · simp [DataStore.delete_by_id, h]

/-- C7 witness: the amended behaviour on the empty file system. -/
theorem C7_missing_container_behaviour_witness :
    DataStore.get_all [] "Missing" = [] ∧
    DataStore.delete_node [] "Missing" = [] ∧
    DataStore.get_by_id [] "x" "Missing" = .error .fileNotFound ∧
    DataStore.delete_by_id [] "x" "Missing" = .error .fileNotFound :=
  C7_missing_container_behaviour [] "x" "Missing" rfl

/-! ## C4: migration is insert-into-target before delete-from-source -/

theorem insert_data_trace {sm : ShardManager} {fs : FS} {data : Row} {fs' : FS} {tr : List Ev}
    (h : ShardManager.insert_data sm fs data = .ok (fs', tr)) :
    ∃ node, tr = [Ev.ins (data.headD "") node] := by
  rw [ShardManager.insert_data] at h
  split at h
  · exact absurd h (by simp)
  · rw [except_bind_ok] at h
    obtain ⟨node, -, h⟩ := h
    rw [except_bind_ok] at h
    obtain ⟨fs1, -, h⟩ := h
    simp only [Except.ok.injEq, Prod.mk.injEq] at h
    exact ⟨node, h.2.symm⟩

theorem addMoveLoop_trace (sm : ShardManager) (nn : String) :
    ∀ (rows : List Row) (fs fs1 : FS) (dels : List String) (tr : List Ev),
      ShardManager.addMoveLoop sm nn rows fs = .ok (fs1, dels, tr) →
      (∀ e ∈ tr, ∃ i t, e = Ev.ins i t) ∧ (∀ d ∈ dels, ∃ t, Ev.ins d t ∈ tr) := by
  intro rows
  induction rows with
  | nil =>
    intro fs fs1 dels tr h
    rw [ShardManager.addMoveLoop] at h
    simp only [Except.ok.injEq, Prod.mk.injEq] at h
    obtain ⟨-, rfl, rfl⟩ := h
    simp
  | cons item rest ih =>
    intro fs fs1 dels tr h
    rw [ShardManager.addMoveLoop] at h
    rw [except_bind_ok] at h
    obtain ⟨item_node, -, h⟩ := h
    split at h
    · exact ih fs fs1 dels tr h
    · rw [except_bind_ok] at h
      obtain ⟨⟨fsi, ev⟩, hins, h⟩ := h
      rw [except_bind_ok] at h
      obtain ⟨⟨fsr, delsr, evs⟩, hrest, h⟩ := h
      simp only [Except.ok.injEq, Prod.mk.injEq] at h
      obtain ⟨-, rfl, rfl⟩ := h
      obtain ⟨node, rfl⟩ := insert_data_trace hins
      obtain ⟨htr, hdel⟩ := ih _ _ _ _ hrest
      constructor
      · intro e he
        rcases List.mem_append.1 he with he | he
        · rcases List.mem_singleton.1 he with rfl
          exact ⟨_, _, rfl⟩
        · exact htr e he
      · intro d hd
        rcases List.mem_cons.1 hd with rfl | hd
        · exact ⟨node, List.mem_append_left _ (List.mem_singleton.2 rfl)⟩
        · obtain ⟨t, ht⟩ := hdel d hd
          exact ⟨t, List.mem_append_right _ ht⟩

theorem removalMoveLoop_trace (nn : String) :
    ∀ (rows : List Row) (fs fs1 : FS) (dels : List String) (tr : List Ev),
      ShardManager.removalMoveLoop nn rows fs = .ok (fs1, dels, tr) →
      (∀ e ∈ tr, ∃ i t, e = Ev.ins i t) ∧ (∀ d ∈ dels, ∃ t, Ev.ins d t ∈ tr) := by
  intro rows
  induction rows with
  | nil =>
    intro fs fs1 dels tr h
    rw [ShardManager.removalMoveLoop] at h
    simp only [Except.ok.injEq, Prod.mk.injEq] at h
    obtain ⟨-, rfl, rfl⟩ := h
    simp
  | cons item rest ih =>
    intro fs fs1 dels tr h
    rw [ShardManager.removalMoveLoop] at h
    rw [except_bind_ok] at h
    obtain ⟨fsi, -, h⟩ := h
    rw [except_bind_ok] at h
    obtain ⟨⟨fsr, delsr, evs⟩, hrest, h⟩ := h
    simp only [Except.ok.injEq, Prod.mk.injEq] at h
    obtain ⟨-, rfl, rfl⟩ := h
    obtain ⟨htr, hdel⟩ := ih _ _ _ _ hrest
    constructor
    · intro e he
      rcases List.mem_cons.1 he with rfl | he
      · exact ⟨_, _, rfl⟩
      · exact htr e he
    · intro d hd
      rcases List.mem_cons.1 hd with rfl | hd
      · exact ⟨nn, List.mem_cons_self _ _⟩
      · obtain ⟨t, ht⟩ := hdel d hd
        exact ⟨t, List.mem_cons_of_mem _ ht⟩

theorem deleteLoop_trace (node : String) :
    ∀ (ids : List String) (fs fs2 : FS) (tr : List Ev),
      ShardManager.deleteLoop node ids fs = .ok (fs2, tr) →
      ∀ e ∈ tr, ∃ i, e = Ev.del i node ∧ i ∈ ids := by
  intro ids
  induction ids with
  | nil =>
    intro fs fs2 tr h
    rw [ShardManager.deleteLoop] at h
    simp only [Except.ok.injEq, Prod.mk.injEq] at h
    obtain ⟨-, rfl⟩ := h
    simp
  | cons id rest ih =>
    intro fs fs2 tr h
    rw [ShardManager.deleteLoop] at h
    rw [except_bind_ok] at h
    obtain ⟨fsd, -, h⟩ := h
    rw [except_bind_ok] at h
    obtain ⟨⟨fsr, evs⟩, hrest, h⟩ := h
    simp only [Except.ok.injEq, Prod.mk.injEq] at h
    obtain ⟨-, rfl⟩ := h
    intro e he
    rcases List.mem_cons.1 he with rfl | he
    · exact ⟨id, rfl, List.mem_cons_self _ _⟩
    · obtain ⟨i, rfl, hi⟩ := ih _ _ _ hrest e he
      exact ⟨i, rfl, List.mem_cons_of_mem _ hi⟩

/-- Decomposition of `_rebalance_data_on_node_addition` on success. -/
theorem rebalance_addition_inv {sm : ShardManager} {fs : FS} {n : String} {fs' : FS} {tr : List Ev}
    (h : ShardManager._rebalance_data_on_node_addition sm fs n = .ok (fs', tr)) :
    ∃ nn fs1 dels tr1 tr2,
      ShardManager._find_closest_next_node_for_hash sm
          ((ShardManager._hash sm n + 1) % sm.max_limit) = .ok nn ∧
      ShardManager.addMoveLoop sm nn (ShardManager._read_all_data fs nn) fs = .ok (fs1, dels, tr1) ∧
      ShardManager.deleteLoop nn dels fs1 = .ok (fs', tr2) ∧
      tr = tr1 ++ tr2 := by
  rw [ShardManager._rebalance_data_on_node_addition] at h
  rw [except_bind_ok] at h
  obtain ⟨nn, hnn, h⟩ := h
  rw [except_bind_ok] at h
  obtain ⟨⟨fs1, dels, tr1⟩, hloop, h⟩ := h
  rw [except_bind_ok] at h
  obtain ⟨⟨fs2, tr2⟩, hdel, h⟩ := h
  simp only [Except.ok.injEq, Prod.mk.injEq] at h
  obtain ⟨rfl, rfl⟩ := h
  exact ⟨nn, fs1, dels, tr1, tr2, hnn, hloop, hdel, rfl⟩

/-- Decomposition of `_rebalance_data_on_node_removal` on success. -/
theorem rebalance_removal_inv {sm : ShardManager} {fs : FS} {n : String} {fs' : FS} {tr : List Ev}
    (h : ShardManager._rebalance_data_on_node_removal sm fs n = .ok (fs', tr)) :
    ∃ nn fs1 dels tr1 tr2,
      1 < sm.shards_to_idx.length ∧
      ShardManager._find_closest_next_node_for_hash sm
          ((ShardManager._hash sm n + 1) % sm.max_limit) = .ok nn ∧
      ShardManager.removalMoveLoop nn (ShardManager._read_all_data fs n) fs = .ok (fs1, dels, tr1) ∧
      ShardManager.deleteLoop n dels fs1 = .ok (fs', tr2) ∧
      tr = tr1 ++ tr2 := by
  rw [ShardManager._rebalance_data_on_node_removal] at h
  split at h
  · exact absurd h (by simp)
  · rw [except_bind_ok] at h
    obtain ⟨nn, hnn, h⟩ := h
    rw [except_bind_ok] at h
    obtain ⟨⟨fs1, dels, tr1⟩, hloop, h⟩ := h
    rw [except_bind_ok] at h
    obtain ⟨⟨fs2, tr2⟩, hdel, h⟩ := h
    simp only [Except.ok.injEq, Prod.mk.injEq] at h
    obtain ⟨rfl, rfl⟩ := h
    exact ⟨nn, fs1, dels, tr1, tr2, by omega, hnn, hloop, hdel, rfl⟩

/-- In `A ++ B = l1 ++ x :: l2` with `x ∉ A`, all of `A` sits inside `l1`. -/
theorem mem_left_of_append_eq {α : Type} {A : List α} :
    ∀ {l1 : List α} {B l2 : List α} {x y : α},
      A ++ B = l1 ++ x :: l2 → x ∉ A → y ∈ A → y ∈ l1 := by
  induction A with
  | nil => intro _ _ _ _ _ _ _ hy; exact absurd hy (List.not_mem_nil _)
  | cons a A' ih =>
    intro l1 B l2 x y heq hx hy
    cases l1 with
    | nil =>
      simp only [List.cons_append, List.nil_append, List.cons.injEq] at heq
      exact absurd (heq.1 ▸ List.mem_cons_self a A') hx
    | cons b l1' =>
      simp only [List.cons_append, List.cons.injEq] at heq
      obtain ⟨rfl, heq'⟩ := heq
      rcases List.mem_cons.1 hy with rfl | hy'
      · exact List.mem_cons_self _ _
      · exact List.mem_cons_of_mem _
          (ih heq' (fun c => hx (List.mem_cons_of_mem _ c)) hy')

/-- C4: in either rebalance, every delete-from-source event in the emitted
store-write trace is preceded by an insert of that same record id into some
target node: the insert phase runs in full before the delete phase, so there
is no intermediate state where a migrated record has left its source without
having been written to its target. -/
theorem C4_insert_before_delete (sm : ShardManager) (fs fs' : FS) (n : String)
    (tr l1 l2 : List Ev) (id src : String)
    (h : ShardManager._rebalance_data_on_node_addition sm fs n = .ok (fs', tr) ∨
         ShardManager._rebalance_data_on_node_removal sm fs n = .ok (fs', tr))
    (hsplit : tr = l1 ++ Ev.del id src :: l2) :
    ∃ tgt, Ev.ins id tgt ∈ l1 := by
  have main : ∀ (tr1 tr2 : List Ev) (dels : List String),
      (∀ e ∈ tr1, ∃ i t, e = Ev.ins i t) → (∀ d ∈ dels, ∃ t, Ev.ins d t ∈ tr1) →
      (∀ e ∈ tr2, ∃ i, e = Ev.del i src ∧ i ∈ dels) →  -- not used with this src; see below
      True := fun _ _ _ _ _ _ => trivial
  clear main
  rcases h with h | h
  · obtain ⟨nn, fs1, dels, tr1, tr2, -, hloop, hdel, rfl⟩ := rebalance_addition_inv h
    obtain ⟨hins, hcollect⟩ := addMoveLoop_trace sm nn _ _ _ _ _ hloop
    have hnotin : Ev.del id src ∉ tr1 := fun c => by
      obtain ⟨i, t, ht⟩ := hins _ c
      exact Ev.noConfusion ht
    have hmem2 : Ev.del id src ∈ tr2 := by
      have : Ev.del id src ∈ tr1 ++ tr2 := by
        rw [hsplit]; exact List.mem_append_right _ (List.mem_cons_self _ _)
      exact (List.mem_append.1 this).resolve_left hnotin
    obtain ⟨i, hi, hidels⟩ := deleteLoop_trace nn dels fs1 fs' tr2 hdel _ hmem2
    obtain ⟨rfl, -⟩ : id = i ∧ src = nn := by
      injection hi with h1 h2; exact ⟨h1, h2⟩
    obtain ⟨t, ht⟩ := hcollect _ hidels
    exact ⟨t, mem_left_of_append_eq hsplit hnotin ht⟩
  · obtain ⟨nn, fs1, dels, tr1, tr2, -, -, hloop, hdel, rfl⟩ := rebalance_removal_inv h
    obtain ⟨hins, hcollect⟩ := removalMoveLoop_trace nn _ _ _ _ _ hloop
    have hnotin : Ev.del id src ∉ tr1 := fun c => by
      obtain ⟨i, t, ht⟩ := hins _ c
      exact Ev.noConfusion ht
    have hmem2 : Ev.del id src ∈ tr2 := by
      have : Ev.del id src ∈ tr1 ++ tr2 := by
        rw [hsplit]; exact List.mem_append_right _ (List.mem_cons_self _ _)
      exact (List.mem_append.1 this).resolve_left hnotin
    obtain ⟨i, hi, hidels⟩ := deleteLoop_trace n dels fs1 fs' tr2 hdel _ hmem2
    obtain ⟨rfl, -⟩ : id = i ∧ src = n := by
      injection hi with h1 h2; exact ⟨h1, h2⟩
    obtain ⟨t, ht⟩ := hcollect _ hidels
    exact ⟨t, mem_left_of_append_eq hsplit hnotin ht⟩

/-- C4 witness: removing `NodeB` with one record migrates it by an insert into
`NodeA` that precedes the delete from `NodeB`. -/
theorem C4_insert_before_delete_witness :
    ∃ tgt, Ev.ins "hello" tgt ∈ [Ev.ins "hello" "NodeA"] :=
  C4_insert_before_delete smNodeAB fsNodeABhello
    [("NodeA.csv", [["hello", "w", "2024-10-01"]]), ("NodeB.csv", [])] "NodeB"
    [Ev.ins "hello" "NodeA", Ev.del "hello" "NodeB"]
    [Ev.ins "hello" "NodeA"] [] "hello" "NodeB"
    (Or.inr (by decide)) rfl

/-! ## Inversion lemmas for the topology operations -/

/-- Decomposition of a successful `add_node`. -/
theorem add_node_ok_inv {sm : ShardManager} {fs : FS} {n : String}
    {sm' : ShardManager} {fs' : FS} {tr : List Ev}
    (h : ShardManager.add_node sm fs n = .ok (sm', fs', tr)) :
    dlookup sm.shards_to_idx n = none ∧
    sm' = { shards_to_idx := dinsert sm.shards_to_idx n (ShardManager._hash sm n)
            idx_to_shards := dinsert sm.idx_to_shards (ShardManager._hash sm n) n
            max_limit := sm.max_limit } ∧
    ShardManager._rebalance_data_on_node_addition sm' (ShardManager._create_node fs n) n
      = .ok (fs', tr) := by
  rw [ShardManager.add_node] at h
  split at h
  · exact absurd h (by simp)
  · rw [except_bind_ok] at h
    obtain ⟨⟨fs2, tr2⟩, hreb, h⟩ := h
    simp only [Except.ok.injEq, Prod.mk.injEq] at h
    obtain ⟨rfl, rfl, rfl⟩ := h
    refine ⟨?_, rfl, hreb⟩
    next hns => exact Option.not_isSome_iff_eq_none.1 hns

/-- Decomposition of a successful `remove_node`. -/
theorem remove_node_ok_inv {sm : ShardManager} {fs : FS} {n : String}
    {sm' : ShardManager} {fs' : FS} {tr : List Ev}
    (h : ShardManager.remove_node sm fs n = .ok (sm', fs', tr)) :
    ∃ p fs1,
      dlookup sm.shards_to_idx n = some p ∧
      ShardManager._rebalance_data_on_node_removal sm fs n = .ok (fs1, tr) ∧
      sm' = { shards_to_idx := derase sm.shards_to_idx n
              idx_to_shards := derase sm.idx_to_shards p
              max_limit := sm.max_limit } ∧
      fs' = ShardManager._delete_node fs1 n := by
  rw [ShardManager.remove_node] at h
  cases hdl : dlookup sm.shards_to_idx n with
  | none => rw [hdl] at h; exact absurd h (by simp)
  | some p =>
    rw [hdl] at h
    rw [except_bind_ok] at h
    obtain ⟨⟨fs1, tr1⟩, hreb, h⟩ := h
    simp only [Except.ok.injEq, Prod.mk.injEq] at h
    obtain ⟨rfl, rfl, rfl⟩ := h
    exact ⟨p, fs1, rfl, hreb, rfl, rfl⟩

/-- `max_limit` is set once by `__init__` and never mutated. -/
theorem reachable_max_limit {sm : ShardManager} {fs : FS} (h : Reachable sm fs) :
    sm.max_limit = 10000 := by
  induction h with
  | start => rfl
  | add _ hop ih => obtain ⟨-, rfl, -⟩ := add_node_ok_inv hop; exact ih
  | remove _ hop ih => obtain ⟨p, fs1, -, -, rfl, -⟩ := remove_node_ok_inv hop; exact ih
  | insert _ _ ih => exact ih
  | delete _ _ ih => exact ih

/-! ## C9: hash determinism and range -/

/-- C9: `_hash` depends only on the key bytes: its value is identical across
any two reachable manager instances (there is no process-local randomness or
per-instance seeding; `max_limit` is the constant 10000), and it always lies
in `[0, max_limit)`. -/
theorem C9_hash_deterministic (sm1 sm2 : ShardManager) (fs1 fs2 : FS) (k : String)
    (h1 : Reachable sm1 fs1) (h2 : Reachable sm2 fs2) :
    ShardManager._hash sm1 k = ShardManager._hash sm2 k ∧
    ShardManager._hash sm1 k < 10000 := by
  rw [ShardManager._hash, ShardManager._hash, reachable_max_limit h1, reachable_max_limit h2]
  exact ⟨rfl, Nat.mod_lt _ (by omega)⟩

/-- C9 witness: two independently constructed instances (a fresh manager and a
manager that has added `NodeA`) agree on the key `"test_key"`. -/
theorem C9_hash_deterministic_witness :
    ShardManager._hash ShardManager.init "test_key" = ShardManager._hash smNodeA "test_key" ∧
    ShardManager._hash ShardManager.init "test_key" < 10000 :=
  C9_hash_deterministic ShardManager.init smNodeA [] fsNodeA "test_key"
    Reachable.start
    (@Reachable.add ShardManager.init [] "NodeA" smNodeA fsNodeA [] Reachable.start (by decide))

/-! ## C1: resolution at an exactly-occupied position -/

theorem dlookup_mem {α β : Type} [DecidableEq α] {m : List (α × β)} {k : α} {v : β}
    (h : dlookup m k = some v) : (k, v) ∈ m := by
  induction m with
  | nil => cases h
  | cons e rest ih =>
    obtain ⟨a, b⟩ := e
    rw [dlookup] at h
    split at h
    · next heq =>
        subst heq
        injection h with h'
        subst h'
        exact List.mem_cons_self _ _
    · exact List.mem_cons_of_mem _ (ih h)

/-- In a `≤`-sorted list containing `p`, the element at index
`countP (· < p)` is `p` itself. -/
theorem sorted_getD_countP :
    ∀ {S : List Nat}, List.Sorted (· ≤ ·) S → ∀ {p : Nat}, p ∈ S →
      S.getD (S.countP (fun v => decide (v < p))) 0 = p := by
  intro S
  induction S with
  | nil => intro _ p hp; cases hp
  | cons a S' ih =>
    intro hs p hp
    rw [List.sorted_cons] at hs
    obtain ⟨ha, hs'⟩ := hs
    by_cases hap : a < p
    · have hp' : p ∈ S' := by
        rcases List.mem_cons.1 hp with rfl | hp'
        · omega
        · exact hp'
      have hcount : (a :: S').countP (fun v => decide (v < p))
          = S'.countP (fun v => decide (v < p)) + 1 := by
        rw [List.countP_cons]
        simp [hap]
      rw [hcount, List.getD_cons_succ]
      exact ih hs' hp'
    · have hpa : p = a := by
        rcases List.mem_cons.1 hp with rfl | hp'
        · rfl
        · have := ha p hp'
          omega
      subst hpa
      have hcount : (p :: S').countP (fun v => decide (v < p)) = 0 := by
        rw [List.countP_cons]
        have h1 : S'.countP (fun v => decide (v < p)) = 0 := by
          rw [List.countP_eq_zero]
          intro b hb
          simp only [decide_eq_true_eq]
          have := ha b hb
          omega
        simp [h1, hap]
      rw [hcount, List.getD_cons_zero]

/-- C1 (amended): `_find_closest_next_node_for_hash` uses `bisect_left`
(first entry with position `≥` the query), so a position that is exactly
occupied by a node's ring entry resolves to that very node — not to the next
node clockwise. -/
theorem C1_resolve_at_occupied_position (sm : ShardManager) (name : String) (p : Nat)
    (hmem : dlookup sm.shards_to_idx name = some p)
    (hidx : dlookup sm.idx_to_shards p = some name) :
    ShardManager._find_closest_next_node_for_hash sm p = .ok name := by
  have hne : ¬ sm.shards_to_idx.isEmpty = true := by
    intro hc
    rw [List.isEmpty_iff] at hc
    rw [hc] at hmem
    cases hmem
  have hpv : p ∈ dvalues sm.shards_to_idx :=
    List.mem_map.2 ⟨(name, p), dlookup_mem hmem, rfl⟩
  have hpS : p ∈ List.insertionSort (· ≤ ·) (dvalues sm.shards_to_idx) :=
    (List.perm_insertionSort (· ≤ ·) _).mem_iff.2 hpv
  have hsorted : List.Sorted (· ≤ ·) (List.insertionSort (· ≤ ·) (dvalues sm.shards_to_idx)) :=
    List.sorted_insertionSort (· ≤ ·) _
  have hlt : ShardManager.bisect_left
      (List.insertionSort (· ≤ ·) (dvalues sm.shards_to_idx)) p
      < (List.insertionSort (· ≤ ·) (dvalues sm.shards_to_idx)).length := by
    rw [ShardManager.bisect_left]
    rcases Nat.lt_or_ge (List.countP (fun v => decide (v < p))
      (List.insertionSort (· ≤ ·) (dvalues sm.shards_to_idx)))
      (List.insertionSort (· ≤ ·) (dvalues sm.shards_to_idx)).length with h | h
    · exact h
    · exfalso
      have hle := List.countP_le_length (fun v => decide (v < p))
        (l := List.insertionSort (· ≤ ·) (dvalues sm.shards_to_idx))
      have heq : List.countP (fun v => decide (v < p))
          (List.insertionSort (· ≤ ·) (dvalues sm.shards_to_idx))
          = (List.insertionSort (· ≤ ·) (dvalues sm.shards_to_idx)).length := by omega
      have := List.countP_eq_length.1 heq p hpS
      simp at this
  rw [ShardManager._find_closest_next_node_for_hash, if_neg hne]
  simp only [if_neg (Nat.ne_of_lt hlt)]
  rw [ShardManager.bisect_left] at hlt ⊢
  rw [sorted_getD_countP hsorted hpS, hidx]

/-- C1 counterexample: from a fresh manager, `add_node "NodeA"` (position
6487) and `add_node "NodeB"` (position 346) both succeed; `NodeA` occupies
position 6487, yet resolving exactly 6487 yields `NodeA` itself — the claim
demands the next node clockwise (`NodeB`, by wrap-around), never the node
sitting at the position. -/
theorem C1_counterexample :
    ShardManager.add_node ShardManager.init [] "NodeA" = .ok (smNodeA, fsNodeA, []) ∧
    ShardManager.add_node smNodeA fsNodeA "NodeB" = .ok (smNodeAB, fsNodeAB, []) ∧
    dlookup smNodeAB.shards_to_idx "NodeA" = some 6487 ∧
    ShardManager._find_closest_next_node_for_hash smNodeAB 6487 = .ok "NodeA" ∧
    "NodeA" ≠ "NodeB" :=
  ⟨by decide, by decide, by decide, by decide, by decide⟩

/-- C1 witness: the amended rule on the concrete two-node ring. -/
theorem C1_resolve_at_occupied_position_witness :
    ShardManager._find_closest_next_node_for_hash smNodeAB 6487 = .ok "NodeA" :=
  C1_resolve_at_occupied_position smNodeAB "NodeA" 6487 (by decide) (by decide)

/-! ## Dict lemmas -/

theorem dlookup_dinsert_self {α β : Type} [DecidableEq α] (m : List (α × β)) (k : α) (v : β) :
    dlookup (dinsert m k v) k = some v := by
  induction m with
  | nil => simp [dinsert, dlookup]
  | cons e rest ih =>
    obtain ⟨a, b⟩ := e
    by_cases hk : a = k
    · subst hk
      simp [dinsert, dlookup]
    · rw [dinsert, if_neg hk, dlookup, if_neg hk]
      exact ih

theorem dlookup_dinsert_ne {α β : Type} [DecidableEq α] (m : List (α × β)) (k k' : α) (v : β)
    (h : k' ≠ k) : dlookup (dinsert m k v) k' = dlookup m k' := by
  induction m with
  | nil =>
    simp only [dinsert, dlookup, if_neg (Ne.symm h)]
  | cons e rest ih =>
    obtain ⟨a, b⟩ := e
    by_cases hk : a = k
    · subst hk
      rw [dinsert, if_pos rfl, dlookup, dlookup, if_neg (Ne.symm h),
        if_neg (Ne.symm h)]
    · rw [dinsert, if_neg hk, dlookup, dlookup]
      by_cases ha : a = k'
      · rw [if_pos ha, if_pos ha]
      · rw [if_neg ha, if_neg ha]
        exact ih

theorem dlookup_derase_ne {α β : Type} [DecidableEq α] (m : List (α × β)) (k k' : α)
    (h : k' ≠ k) : dlookup (derase m k) k' = dlookup m k' := by
  induction m with
  | nil => rfl
  | cons e rest ih =>
    obtain ⟨a, b⟩ := e
    by_cases hk : a = k
    · subst hk
      rw [derase, if_pos rfl, dlookup, if_neg (Ne.symm h)]
    · rw [derase, if_neg hk, dlookup, dlookup]
      by_cases ha : a = k'
      · rw [if_pos ha, if_pos ha]
      · rw [if_neg ha, if_neg ha]
        exact ih

/-! ## C3: what add_node rejects (and what it silently overwrites) -/

/-- C3 (amended): `add_node` rejects exactly a duplicate node *name*.  A
computed-position collision under a fresh name is not checked anywhere: when
such a call succeeds, the `idx_to_shards` entry at the colliding position is
silently overwritten by the new name while the previously-present owner keeps
its `shards_to_idx` entry, so ring positions are not guaranteed unique after
successful insertions. -/
theorem C3_rejects_only_duplicate_names (sm : ShardManager) (fs : FS) (name : String)
    (sm' : ShardManager) (fs' : FS) (tr : List Ev) :
    ((dlookup sm.shards_to_idx name).isSome →
        ShardManager.add_node sm fs name = .error .duplicateNode) ∧
    (ShardManager.add_node sm fs name = .ok (sm', fs', tr) →
        dlookup sm.shards_to_idx name = none ∧
        dlookup sm'.idx_to_shards (ShardManager._hash sm name) = some name ∧
        dlookup sm'.shards_to_idx name = some (ShardManager._hash sm name) ∧
        ∀ m, m ≠ name → dlookup sm'.shards_to_idx m = dlookup sm.shards_to_idx m) := by
  constructor
  · intro h
    simp [ShardManager.add_node, h]
  · intro h
    obtain ⟨hfresh, rfl, -⟩ := add_node_ok_inv h
    refine ⟨hfresh, dlookup_dinsert_self .., dlookup_dinsert_self .., fun m hm => ?_⟩
    exact dlookup_dinsert_ne _ _ _ _ hm

/-- C3 counterexample: starting from a fresh manager, `add_node "Node91"`
(position 2360) and one record insert succeed; then `add_node "Node145"`,
whose computed position is the *same* 2360, is **not** rejected: it succeeds,
after which the ring holds two entries with position 2360 and
`idx_to_shards[2360]` has been silently overwritten to `Node145`. -/
theorem C3_counterexample :
    ShardManager.add_node ShardManager.init [] "Node91"
      = .ok (smNode91, [("Node91.csv", [])], []) ∧
    ShardManager.insert_data smNode91 [("Node91.csv", [])] ["rec", "v", "2024-10-01"]
      = .ok (fsNode91rec, [Ev.ins "rec" "Node91"]) ∧
    ShardManager._hash smNode91 "Node145" = 2360 ∧
    dlookup smNode91.shards_to_idx "Node91" = some 2360 ∧
    ShardManager.add_node smNode91 fsNode91rec "Node145" = .ok (smNode91_145, fsNode91_145, []) ∧
    dvalues smNode91_145.shards_to_idx = [2360, 2360] ∧
    dlookup smNode91_145.idx_to_shards 2360 = some "Node145" :=
  ⟨by decide, by decide, by decide, by decide, by decide, by decide, by decide⟩

/-- C3 witness: the amended description applied to the colliding call. -/
theorem C3_rejects_only_duplicate_names_witness :
    dlookup smNode91.shards_to_idx "Node145" = none ∧
    dlookup smNode91_145.idx_to_shards 2360 = some "Node145" ∧
    dlookup smNode91_145.shards_to_idx "Node91" = dlookup smNode91.shards_to_idx "Node91" :=
  match (C3_rejects_only_duplicate_names smNode91 fsNode91rec "Node145"
      smNode91_145 fsNode91_145 []).2 (by decide) with
  | ⟨h1, h2, _, h4⟩ => ⟨h1, (by decide : ShardManager._hash smNode91 "Node145" = 2360) ▸ h2,
      h4 "Node91" (by decide)⟩

/-! ## More dict lemmas: nodup keys, erasure, preservation of presence -/

theorem dlookup_eq_none_of_not_mem_fst {α β : Type} [DecidableEq α] {m : List (α × β)} {k : α}
    (h : k ∉ m.map Prod.fst) : dlookup m k = none := by
  induction m with
  | nil => rfl
  | cons e rest ih =>
    obtain ⟨a, b⟩ := e
    rw [dlookup]
    rw [List.map_cons, List.mem_cons] at h
    rw [if_neg (fun c => h (Or.inl c.symm))]
    exact ih (fun c => h (Or.inr c))

theorem mem_fst_dinsert {α β : Type} [DecidableEq α] {m : List (α × β)} {k x : α} {v : β}
    (h : x ∈ (dinsert m k v).map Prod.fst) : x ∈ m.map Prod.fst ∨ x = k := by
  induction m with
  | nil => simpa [dinsert] using h
  | cons e rest ih =>
    obtain ⟨a, b⟩ := e
    by_cases hk : a = k
    · subst hk
      rw [dinsert, if_pos rfl, List.map_cons] at h
      rcases List.mem_cons.1 h with rfl | h
      · exact Or.inr rfl
      · exact Or.inl (List.mem_cons_of_mem _ h)
    · rw [dinsert, if_neg hk, List.map_cons, List.mem_cons] at h
      rcases h with rfl | h
      · exact Or.inl (List.mem_cons_self _ _)
      · rcases ih h with h | h
        · exact Or.inl (List.mem_cons_of_mem _ h)
        · exact Or.inr h

theorem dinsert_nodup_fst {α β : Type} [DecidableEq α] {m : List (α × β)}
    (h : (m.map Prod.fst).Nodup) (k : α) (v : β) :
    ((dinsert m k v).map Prod.fst).Nodup := by
  induction m with
  | nil => simp [dinsert]
  | cons e rest ih =>
    obtain ⟨a, b⟩ := e
    rw [List.map_cons, List.nodup_cons] at h
    obtain ⟨ha, hrest⟩ := h
    by_cases hk : a = k
    · subst hk
      rw [dinsert, if_pos rfl, List.map_cons, List.nodup_cons]
      exact ⟨ha, hrest⟩
    · rw [dinsert, if_neg hk, List.map_cons, List.nodup_cons]
      refine ⟨fun c => ?_, ih hrest⟩
      rcases mem_fst_dinsert c with c | c
      · exact ha c
      · exact hk c

theorem derase_sublist {α β : Type} [DecidableEq α] (m : List (α × β)) (k : α) :
    (derase m k).Sublist m := by
  induction m with
  | nil => exact List.Sublist.refl _
  | cons e rest ih =>
    obtain ⟨a, b⟩ := e
    by_cases hk : a = k
    · rw [derase, if_pos hk]
      exact List.sublist_cons_self _ _
    · rw [derase, if_neg hk]
      exact List.Sublist.cons₂ _ ih

theorem derase_nodup_fst {α β : Type} [DecidableEq α] {m : List (α × β)}
    (h : (m.map Prod.fst).Nodup) (k : α) : ((derase m k).map Prod.fst).Nodup :=
  ((derase_sublist m k).map Prod.fst).nodup h

theorem dlookup_derase_self {α β : Type} [DecidableEq α] {m : List (α × β)}
    (h : (m.map Prod.fst).Nodup) (k : α) : dlookup (derase m k) k = none := by
  induction m with
  | nil => rfl
  | cons e rest ih =>
    obtain ⟨a, b⟩ := e
    rw [List.map_cons, List.nodup_cons] at h
    obtain ⟨ha, hrest⟩ := h
    by_cases hk : a = k
    · subst hk
      rw [derase, if_pos rfl]
      exact dlookup_eq_none_of_not_mem_fst ha
    · rw [derase, if_neg hk, dlookup, if_neg hk]
      exact ih hrest

theorem dinsert_isSome {α β : Type} [DecidableEq α] (m : List (α × β)) (k q : α) (v : β)
    (h : (dlookup m q).isSome) : (dlookup (dinsert m k v) q).isSome := by
  by_cases hq : q = k
  · subst hq
    rw [dlookup_dinsert_self]
    rfl
  · rw [dlookup_dinsert_ne _ _ _ _ hq]
    exact h

/-! ## Success/inversion lemmas for the store primitives -/

theorem _insert_data_to_node_ok_isSome {fs : FS} {d : Row} {n : String} {fs' : FS}
    (h : ShardManager._insert_data_to_node fs d n = .ok fs') (q : String)
    (hq : (dlookup fs q).isSome) : (dlookup fs' q).isSome := by
  rw [ShardManager._insert_data_to_node] at h
  cases hdl : dlookup fs (ShardManager._get_node_config n) with
  | none => rw [hdl] at h; cases h
  | some rows =>
    rw [hdl] at h
    injection h with h'
    subst h'
    exact dinsert_isSome _ _ _ _ hq

theorem _delete_by_id_from_node_ok_isSome {fs : FS} {i n : String} {fs' : FS}
    (h : ShardManager._delete_by_id_from_node fs i n = .ok fs') (q : String)
    (hq : (dlookup fs q).isSome) : (dlookup fs' q).isSome := by
  rw [ShardManager._delete_by_id_from_node] at h
  cases hdl : dlookup fs (ShardManager._get_node_config n) with
  | none => rw [hdl] at h; cases h
  | some rows =>
    rw [hdl] at h
    injection h with h'
    subst h'
    exact dinsert_isSome _ _ _ _ hq

theorem insert_data_ok_inv {sm : ShardManager} {fs : FS} {data : Row} {fs' : FS} {tr : List Ev}
    (h : ShardManager.insert_data sm fs data = .ok (fs', tr)) :
    data.length = 3 ∧
    ∃ node, ShardManager._find_closest_next_node_for_key sm (data.headD "") = .ok node ∧
      ShardManager._insert_data_to_node fs data node = .ok fs' ∧
      tr = [Ev.ins (data.headD "") node] := by
  rw [ShardManager.insert_data] at h
  split at h
  · exact absurd h (by simp)
  · next hlen =>
    rw [except_bind_ok] at h
    obtain ⟨node, hnode, h⟩ := h
    rw [except_bind_ok] at h
    obtain ⟨fs1, hins, h⟩ := h
    simp only [Except.ok.injEq, Prod.mk.injEq] at h
    obtain ⟨rfl, rfl⟩ := h
    refine ⟨?_, node, hnode, hins, rfl⟩
    simpa [schema] using hlen

theorem delete_data_ok_inv {sm : ShardManager} {fs : FS} {i : String} {fs' : FS} {tr : List Ev}
    (h : ShardManager.delete_data sm fs i = .ok (fs', tr)) :
    ∃ node, ShardManager._find_closest_next_node_for_key sm i = .ok node ∧
      ShardManager._delete_by_id_from_node fs i node = .ok fs' ∧
      tr = [Ev.del i node] := by
  rw [ShardManager.delete_data] at h
  rw [except_bind_ok] at h
  obtain ⟨node, hnode, h⟩ := h
  rw [except_bind_ok] at h
  obtain ⟨fs1, hdel, h⟩ := h
  simp only [Except.ok.injEq, Prod.mk.injEq] at h
  obtain ⟨rfl, rfl⟩ := h
  exact ⟨node, hnode, hdel, rfl⟩

theorem addMoveLoop_ok_isSome (sm : ShardManager) (nn : String) :
    ∀ (rows : List Row) (fs fs1 : FS) (dels : List String) (tr : List Ev),
      ShardManager.addMoveLoop sm nn rows fs = .ok (fs1, dels, tr) →
      ∀ q, (dlookup fs q).isSome → (dlookup fs1 q).isSome := by
  intro rows
  induction rows with
  | nil =>
    intro fs fs1 dels tr h q hq
    rw [ShardManager.addMoveLoop] at h
    simp only [Except.ok.injEq, Prod.mk.injEq] at h
    obtain ⟨rfl, -, -⟩ := h
    exact hq
  | cons item rest ih =>
    intro fs fs1 dels tr h q hq
    rw [ShardManager.addMoveLoop] at h
    rw [except_bind_ok] at h
    obtain ⟨item_node, -, h⟩ := h
    split at h
    · exact ih fs fs1 dels tr h q hq
    · rw [except_bind_ok] at h
      obtain ⟨⟨fsi, ev⟩, hins, h⟩ := h
      rw [except_bind_ok] at h
      obtain ⟨⟨fsr, delsr, evs⟩, hrest, h⟩ := h
      simp only [Except.ok.injEq, Prod.mk.injEq] at h
      obtain ⟨rfl, -, -⟩ := h
      obtain ⟨-, node, -, hins', -⟩ := insert_data_ok_inv hins
      exact ih _ _ _ _ hrest q (_insert_data_to_node_ok_isSome hins' q hq)

theorem removalMoveLoop_ok_isSome (nn : String) :
    ∀ (rows : List Row) (fs fs1 : FS) (dels : List String) (tr : List Ev),
      ShardManager.removalMoveLoop nn rows fs = .ok (fs1, dels, tr) →
      ∀ q, (dlookup fs q).isSome → (dlookup fs1 q).isSome := by
  intro rows
  induction rows with
  | nil =>
    intro fs fs1 dels tr h q hq
    rw [ShardManager.removalMoveLoop] at h
    simp only [Except.ok.injEq, Prod.mk.injEq] at h
    obtain ⟨rfl, -, -⟩ := h
    exact hq
  | cons item rest ih =>
    intro fs fs1 dels tr h q hq
    rw [ShardManager.removalMoveLoop] at h
    rw [except_bind_ok] at h
    obtain ⟨fsi, hins, h⟩ := h
    rw [except_bind_ok] at h
    obtain ⟨⟨fsr, delsr, evs⟩, hrest, h⟩ := h
    simp only [Except.ok.injEq, Prod.mk.injEq] at h
    obtain ⟨rfl, -, -⟩ := h
    exact ih _ _ _ _ hrest q (_insert_data_to_node_ok_isSome hins q hq)

theorem deleteLoop_ok_isSome (node : String) :
    ∀ (ids : List String) (fs fs2 : FS) (tr : List Ev),
      ShardManager.deleteLoop node ids fs = .ok (fs2, tr) →
      ∀ q, (dlookup fs q).isSome → (dlookup fs2 q).isSome := by
  intro ids
  induction ids with
  | nil =>
    intro fs fs2 tr h q hq
    rw [ShardManager.deleteLoop] at h
    simp only [Except.ok.injEq, Prod.mk.injEq] at h
    obtain ⟨rfl, -⟩ := h
    exact hq
  | cons id rest ih =>
    intro fs fs2 tr h q hq
    rw [ShardManager.deleteLoop] at h
    rw [except_bind_ok] at h
    obtain ⟨fsd, hdel, h⟩ := h
    rw [except_bind_ok] at h
    obtain ⟨⟨fsr, evs⟩, hrest, h⟩ := h
    simp only [Except.ok.injEq, Prod.mk.injEq] at h
    obtain ⟨rfl, -⟩ := h
    exact ih _ _ _ hrest q (_delete_by_id_from_node_ok_isSome hdel q hq)

theorem rebalance_addition_ok_isSome {sm : ShardManager} {fs : FS} {n : String} {fs' : FS}
    {tr : List Ev} (h : ShardManager._rebalance_data_on_node_addition sm fs n = .ok (fs', tr)) :
    ∀ q, (dlookup fs q).isSome → (dlookup fs' q).isSome := by
  obtain ⟨nn, fs1, dels, tr1, tr2, -, hloop, hdel, -⟩ := rebalance_addition_inv h
  intro q hq
  exact deleteLoop_ok_isSome nn dels fs1 fs' tr2 hdel q
    (addMoveLoop_ok_isSome sm nn _ _ _ _ _ hloop q hq)

theorem rebalance_removal_ok_isSome {sm : ShardManager} {fs : FS} {n : String} {fs' : FS}
    {tr : List Ev} (h : ShardManager._rebalance_data_on_node_removal sm fs n = .ok (fs', tr)) :
    ∀ q, (dlookup fs q).isSome → (dlookup fs' q).isSome := by
  obtain ⟨nn, fs1, dels, tr1, tr2, -, -, hloop, hdel, -⟩ := rebalance_removal_inv h
  intro q hq
  exact deleteLoop_ok_isSome n dels fs1 fs' tr2 hdel q
    (removalMoveLoop_ok_isSome nn _ _ _ _ _ hloop q hq)

/-- A successful resolution names a node recorded in `idx_to_shards`. -/
theorem resolve_ok_inv {sm : ShardManager} {h : Nat} {node : String}
    (hr : ShardManager._find_closest_next_node_for_hash sm h = .ok node) :
    ∃ pos, dlookup sm.idx_to_shards pos = some node := by
  rw [ShardManager._find_closest_next_node_for_hash] at hr
  split at hr
  · cases hr
  · simp only at hr
    split at hr
    · next nn heq =>
      injection hr with h'
      subst h'
      exact ⟨_, heq⟩
    · cases hr

/-! ## The container invariant over restricted reachability -/

theorem contInv_add {sm : ShardManager} {fs : FS} {n : String} {sm' : ShardManager}
    {fs' : FS} {tr : List Ev} (inv : ContInv sm fs)
    (hconf : ∀ m p, dlookup sm.shards_to_idx m = some p →
      ShardManager._get_node_config m ≠ ShardManager._get_node_config n)
    (h : ShardManager.add_node sm fs n = .ok (sm', fs', tr)) : ContInv sm' fs' := by
  obtain ⟨hfresh, rfl, hreb⟩ := add_node_ok_inv h
  have hpres := rebalance_addition_ok_isSome hreb
  constructor
  · exact dinsert_nodup_fst inv.shards_nodup _ _
  · exact dinsert_nodup_fst inv.idx_nodup _ _
  · intro h' m hm
    by_cases hh : h' = ShardManager._hash sm n
    · subst hh
      rw [dlookup_dinsert_self] at hm
      injection hm with hm
      subst hm
      exact dlookup_dinsert_self ..
    · rw [dlookup_dinsert_ne _ _ _ _ hh] at hm
      have hold := inv.idx_sub h' m hm
      by_cases hmn : m = n
      · subst hmn
        rw [hfresh] at hold
        cases hold
      · rw [dlookup_dinsert_ne _ _ _ _ hmn]
        exact hold
  · intro n₁ p₁ n₂ p₂ h₁ h₂ hc
    by_cases e₁ : n₁ = n
    · by_cases e₂ : n₂ = n
      · rw [e₁, e₂]
      · rw [dlookup_dinsert_ne _ _ _ _ e₂] at h₂
        subst e₁
        exact absurd hc.symm (hconf n₂ p₂ h₂)
    · by_cases e₂ : n₂ = n
      · rw [dlookup_dinsert_ne _ _ _ _ e₁] at h₁
        subst e₂
        exact absurd hc (hconf n₁ p₁ h₁)
      · rw [dlookup_dinsert_ne _ _ _ _ e₁] at h₁
        rw [dlookup_dinsert_ne _ _ _ _ e₂] at h₂
        exact inv.config_inj n₁ p₁ n₂ p₂ h₁ h₂ hc
  · intro m p hm
    by_cases hmn : m = n
    · subst hmn
      apply hpres
      rw [ShardManager._create_node, dlookup_dinsert_self]
      rfl
    · rw [dlookup_dinsert_ne _ _ _ _ hmn] at hm
      apply hpres
      rw [ShardManager._create_node]
      exact dinsert_isSome _ _ _ _ (inv.containers m p hm)

theorem contInv_remove {sm : ShardManager} {fs : FS} {n : String} {sm' : ShardManager}
    {fs' : FS} {tr : List Ev} (inv : ContInv sm fs)
    (h : ShardManager.remove_node sm fs n = .ok (sm', fs', tr)) : ContInv sm' fs' := by
  obtain ⟨p, fs1, hdl, hreb, rfl, rfl⟩ := remove_node_ok_inv h
  have hpres := rebalance_removal_ok_isSome hreb
  constructor
  · exact derase_nodup_fst inv.shards_nodup _
  · exact derase_nodup_fst inv.idx_nodup _
  · intro h' m hm
    by_cases hh : h' = p
    · subst hh
      rw [dlookup_derase_self inv.idx_nodup] at hm
      cases hm
    · rw [dlookup_derase_ne _ _ _ hh] at hm
      have hold := inv.idx_sub h' m hm
      by_cases hmn : m = n
      · subst hmn
        rw [hdl] at hold
        injection hold with hold
        exact absurd hold.symm hh
      · rw [dlookup_derase_ne _ _ _ hmn]
        exact hold
  · intro n₁ p₁ n₂ p₂ h₁ h₂ hc
    by_cases e₁ : n₁ = n
    · subst e₁
      rw [dlookup_derase_self inv.shards_nodup] at h₁
      cases h₁
    · by_cases e₂ : n₂ = n
      · subst e₂
        rw [dlookup_derase_self inv.shards_nodup] at h₂
        cases h₂
      · rw [dlookup_derase_ne _ _ _ e₁] at h₁
        rw [dlookup_derase_ne _ _ _ e₂] at h₂
        exact inv.config_inj n₁ p₁ n₂ p₂ h₁ h₂ hc
  · intro m q hm
    by_cases hmn : m = n
    · subst hmn
      rw [dlookup_derase_self inv.shards_nodup] at hm
      cases hm
    · rw [dlookup_derase_ne _ _ _ hmn] at hm
      have hc : ShardManager._get_node_config m ≠ ShardManager._get_node_config n :=
        fun c => hmn (inv.config_inj m q n p hm hdl c)
      rw [ShardManager._delete_node, dlookup_derase_ne _ _ _ hc]
      exact hpres _ (inv.containers m q hm)

theorem contInv_insert_data {sm : ShardManager} {fs : FS} {d : Row} {fs' : FS} {tr : List Ev}
    (inv : ContInv sm fs) (h : ShardManager.insert_data sm fs d = .ok (fs', tr)) :
    ContInv sm fs' := by
  obtain ⟨-, node, -, hins, -⟩ := insert_data_ok_inv h
  exact ⟨inv.shards_nodup, inv.idx_nodup, inv.idx_sub, inv.config_inj,
    fun m p hm => _insert_data_to_node_ok_isSome hins _ (inv.containers m p hm)⟩

theorem contInv_delete_data {sm : ShardManager} {fs : FS} {i : String} {fs' : FS} {tr : List Ev}
    (inv : ContInv sm fs) (h : ShardManager.delete_data sm fs i = .ok (fs', tr)) :
    ContInv sm fs' := by
  obtain ⟨node, -, hdel, -⟩ := delete_data_ok_inv h
  exact ⟨inv.shards_nodup, inv.idx_nodup, inv.idx_sub, inv.config_inj,
    fun m p hm => _delete_by_id_from_node_ok_isSome hdel _ (inv.containers m p hm)⟩

theorem reachableDistinct_contInv {sm : ShardManager} {fs : FS}
    (h : ReachableDistinct sm fs) : ContInv sm fs := by
  induction h with
  | start =>
    refine ⟨List.nodup_nil, List.nodup_nil, ?_, ?_, ?_⟩
    · intro a b c
      exact absurd c (by simp [ShardManager.init, dlookup])
    · intro n₁ p₁ n₂ p₂ h₁ h₂ hc
      exact absurd h₁ (by simp [ShardManager.init, dlookup])
    · intro n p hn
      exact absurd hn (by simp [ShardManager.init, dlookup])
  | add _ hconf hop ih => exact contInv_add ih hconf hop
  | remove _ hop ih => exact contInv_remove ih hop
  | insert _ hop ih => exact contInv_insert_data ih hop
  | delete _ hop ih => exact contInv_delete_data ih hop

/-! ## C10: ring membership implies an existing backing container -/

/-- C10 (amended): in every state reached from a fresh manager by successful
operations *whose added node names have backing files distinct from those of
the coexisting nodes*, every node name present in the ring mapping has an
existing backing container, and any key resolution followed by a read or
write on the resolved node finds its container (none of the per-node file
operations can fail with `FileNotFoundError`). -/
theorem C10_ring_nodes_have_containers (sm : ShardManager) (fs : FS)
    (h : ReachableDistinct sm fs) :
    (∀ n p, dlookup sm.shards_to_idx n = some p →
        (dlookup fs (ShardManager._get_node_config n)).isSome) ∧
    (∀ k node, ShardManager._find_closest_next_node_for_key sm k = .ok node →
        (∃ rows, ShardManager._get_by_id_from_node fs k node = .ok rows) ∧
        (∀ row, ∃ fs', ShardManager._insert_data_to_node fs row node = .ok fs') ∧
        (∃ fs', ShardManager._delete_by_id_from_node fs k node = .ok fs')) := by
  have inv := reachableDistinct_contInv h
  refine ⟨inv.containers, fun k node hres => ?_⟩
  obtain ⟨pos, hidx⟩ := resolve_ok_inv hres
  have hshards := inv.idx_sub pos node hidx
  have hcont := inv.containers node pos hshards
  obtain ⟨rows, hrows⟩ := Option.isSome_iff_exists.1 hcont
  refine ⟨?_, ?_, ?_⟩
  · exact ⟨rows.filter (fun r => r.headD "" == k),
      by rw [ShardManager._get_by_id_from_node, hrows]⟩
  · intro row
    exact ⟨dinsert fs (ShardManager._get_node_config node) (rows ++ [row]),
      by rw [ShardManager._insert_data_to_node, hrows]⟩
  · exact ⟨dinsert fs (ShardManager._get_node_config node)
        (rows.filter (fun r => ¬ r.headD "" == k)),
      by rw [ShardManager._delete_by_id_from_node, hrows]⟩

/-- C10 counterexample: from a fresh manager, `add_node "A"`, `add_node
"A.csv"` and `remove_node "A"` all succeed (names are distinct, positions are
8845 and 5108), but both node names share the backing file `A.csv`, so
removing `"A"` deletes `"A.csv"`'s container out from under it: the surviving
ring member `"A.csv"` has no backing container, and the very next resolved
read fails with `FileNotFoundError`. -/
theorem C10_counterexample :
    ShardManager.add_node ShardManager.init [] "A" = .ok (smJustA, [("A.csv", [])], []) ∧
    ShardManager.add_node smJustA [("A.csv", [])] "A.csv"
      = .ok (smA_Acsv, [("A.csv", [])], []) ∧
    ShardManager.remove_node smA_Acsv [("A.csv", [])] "A" = .ok (smOnlyAcsv, [], []) ∧
    dlookup smOnlyAcsv.shards_to_idx "A.csv" = some 5108 ∧
    dlookup ([] : FS) (ShardManager._get_node_config "A.csv") = none ∧
    ShardManager.get_data smOnlyAcsv [] "k1" = .error .fileNotFound :=
  ⟨by decide, by decide, by decide, by decide, by decide, by decide⟩

/-- C10 witness: the invariant on the concrete reachable one-node cluster. -/
theorem C10_ring_nodes_have_containers_witness :
    (dlookup fsNodeA (ShardManager._get_node_config "NodeA")).isSome = true ∧
    (∃ rows, ShardManager._get_by_id_from_node fsNodeA "hello" "NodeA" = .ok rows) :=
  have h : ReachableDistinct smNodeA fsNodeA :=
    @ReachableDistinct.add ShardManager.init [] "NodeA" smNodeA fsNodeA []
      ReachableDistinct.start (fun m p hc => nomatch hc) (by decide)
  ⟨(C10_ring_nodes_have_containers smNodeA fsNodeA h).1 "NodeA" 6487 (by decide),
   ((C10_ring_nodes_have_containers smNodeA fsNodeA h).2 "hello" "NodeA" (by decide)).1⟩

/-! ## C2 groundwork: the semantic target position -/

theorem min?_perm {l l' : List Nat} (h : l.Perm l') : l.min? = l'.min? := by
  cases hm : l.min? with
  | none =>
    rw [List.min?_eq_none_iff] at hm
    subst hm
    rw [List.min?_eq_none_iff.2 h.symm.eq_nil]
  | some a =>
    rw [List.min?_eq_some_iff'] at hm
    exact (List.min?_eq_some_iff'.2
      ⟨h.mem_iff.1 hm.1, fun b hb => hm.2 b (h.mem_iff.2 hb)⟩).symm

theorem targetPos_perm {V V' : List Nat} (h : V.Perm V') (k : Nat) :
    targetPos V k = targetPos V' k := by
  rw [targetPos, targetPos, min?_perm (h.filter _), min?_perm h]

theorem targetPos_total {V : List Nat} (hne : V ≠ []) (k : Nat) :
    ∃ p, targetPos V k = some p ∧ p ∈ V := by
  rw [targetPos]
  cases hm : (V.filter (fun v => decide (k ≤ v))).min? with
  | some p =>
    have hmem := (List.min?_eq_some_iff'.1 hm).1
    exact ⟨p, rfl, (List.mem_filter.1 hmem).1⟩
  | none =>
    cases hv : V.min? with
    | none =>
      rw [List.min?_eq_none_iff] at hv
      exact absurd hv hne
    | some p => exact ⟨p, rfl, (List.min?_eq_some_iff'.1 hv).1⟩

/-- Characterization of `targetPos` on a non-empty position list: it is the
minimum position `≥ k`, or, when every position is `< k`, the global minimum. -/
theorem targetPos_eq_some_iff {V : List Nat} {k p : Nat} (hV : V ≠ []) :
    targetPos V k = some p ↔ p ∈ V ∧
      ((k ≤ p ∧ ∀ v ∈ V, k ≤ v → p ≤ v) ∨ ((∀ v ∈ V, v < k) ∧ ∀ v ∈ V, p ≤ v)) := by
  rw [targetPos]
  cases hm : (V.filter (fun v => decide (k ≤ v))).min? with
  | some q =>
    obtain ⟨hqmem, hqle⟩ := List.min?_eq_some_iff'.1 hm
    rw [List.mem_filter, decide_eq_true_eq] at hqmem
    obtain ⟨hqV, hqk⟩ := hqmem
    constructor
    · intro he
      injection he with he
      subst he
      exact ⟨hqV, Or.inl ⟨hqk, fun v hv hkv =>
        hqle v (List.mem_filter.2 ⟨hv, by simpa using hkv⟩)⟩⟩
    · rintro ⟨hpV, ⟨hkp, hmin⟩ | ⟨hall, -⟩⟩
      · have h1 : p ≤ q := hmin q hqV hqk
        have h2 : q ≤ p := hqle p (List.mem_filter.2 ⟨hpV, by simpa using hkp⟩)
        rw [Nat.le_antisymm h2 h1]
      · have := hall q hqV
        omega
  | none =>
    rw [List.min?_eq_none_iff, List.filter_eq_nil_iff] at hm
    have hall : ∀ v ∈ V, v < k := fun v hv => by
      have := hm v hv
      simp only [decide_eq_true_eq] at this
      omega
    cases hv : V.min? with
    | none =>
      rw [List.min?_eq_none_iff] at hv
      exact absurd hv hV
    | some q =>
      obtain ⟨hqV, hqle⟩ := List.min?_eq_some_iff'.1 hv
      constructor
      · intro he
        injection he with he
        subst he
        exact ⟨hqV, Or.inr ⟨hall, hqle⟩⟩
      · rintro ⟨hpV, ⟨hkp, -⟩ | ⟨-, hmin⟩⟩
        · have := hall p hpV
          omega
        · have h1 : p ≤ q := hmin q hqV
          have h2 : q ≤ p := hqle p hpV
          rw [Nat.le_antisymm h2 h1]

/-- Inserting a fresh position `h` does not change the target of a key whose
new target is not `h`. -/
theorem targetPos_cons_ne {h k p : Nat} {V : List Nat} (hne : V ≠ [])
    (hp : targetPos (h :: V) k = some p) (hph : p ≠ h) : targetPos V k = some p := by
  rw [targetPos_eq_some_iff (List.cons_ne_nil h V)] at hp
  obtain ⟨hpV, hca⟩ := hp
  have hpV' : p ∈ V := by
    rcases List.mem_cons.1 hpV with rfl | hv
    · exact absurd rfl hph
    · exact hv
  rw [targetPos_eq_some_iff hne]
  rcases hca with ⟨hkp, hmin⟩ | ⟨hall, hmin⟩
  · exact ⟨hpV', Or.inl ⟨hkp, fun v hv hkv => hmin v (List.mem_cons_of_mem _ hv) hkv⟩⟩
  · exact ⟨hpV', Or.inr ⟨fun v hv => hall v (List.mem_cons_of_mem _ hv),
      fun v hv => hmin v (List.mem_cons_of_mem _ hv)⟩⟩

/-- The position returned for `(h+1) % M` on the ring extended with `h` — the
"next node clockwise" that the rebalance scans — is one of the other
positions, never `h` itself. -/
theorem targetPos_next_mem {M h : Nat} {V : List Nat}
    (hVM : ∀ v ∈ V, v < M) (hhM : h < M) (hh : h ∉ V) (hne : V ≠ []) {s : Nat}
    (hs : targetPos (h :: V) ((h + 1) % M) = some s) : s ∈ V ∧ s ≠ h := by
  obtain ⟨v₀, hv₀⟩ := List.exists_mem_of_ne_nil V hne
  have hv₀h : v₀ ≠ h := fun c => hh (c ▸ hv₀)
  rw [targetPos_eq_some_iff (List.cons_ne_nil h V)] at hs
  obtain ⟨hsV, hca⟩ := hs
  by_cases hsh : s = h
  · exfalso
    rw [hsh] at hca
    by_cases hm : h + 1 < M
    · rw [Nat.mod_eq_of_lt hm] at hca
      rcases hca with ⟨hks, -⟩ | ⟨hall, hmin⟩
      · omega
      · have h1 := hall v₀ (List.mem_cons_of_mem _ hv₀)
        have h2 := hmin v₀ (List.mem_cons_of_mem _ hv₀)
        omega
    · have hmod : (h + 1) % M = 0 := by
        have he : h + 1 = M := by omega
        rw [he]
        exact Nat.mod_self M
      rw [hmod] at hca
      rcases hca with ⟨-, hmin⟩ | ⟨hall, -⟩
      · have h1 := hmin v₀ (List.mem_cons_of_mem _ hv₀) (Nat.zero_le v₀)
        have h2 := hVM v₀ hv₀
        omega
      · have := hall h (List.mem_cons_self _ _)
        omega
  · refine ⟨?_, hsh⟩
    rcases List.mem_cons.1 hsV with rfl | hv
    · exact absurd rfl hsh
    · exact hv

/-- Keys whose target on the extended ring is the fresh position `h` had, on
the original ring, exactly the target that the extended ring assigns to
`(h+1) % M` — i.e. the next position clockwise of `h`. -/
theorem targetPos_cons_self {M h k : Nat} {V : List Nat}
    (hVM : ∀ v ∈ V, v < M) (hhM : h < M) (hh : h ∉ V) (hne : V ≠ [])
    (hk : targetPos (h :: V) k = some h) :
    targetPos V k = targetPos (h :: V) ((h + 1) % M) := by
  obtain ⟨s, hs, -⟩ := targetPos_total (List.cons_ne_nil h V) ((h + 1) % M)
  obtain ⟨hsV, hsh⟩ := targetPos_next_mem hVM hhM hh hne hs
  rw [hs, targetPos_eq_some_iff hne]
  rw [targetPos_eq_some_iff (List.cons_ne_nil h V)] at hk hs
  obtain ⟨-, hkca⟩ := hk
  obtain ⟨-, hsca⟩ := hs
  refine ⟨hsV, ?_⟩
  by_cases hm : h + 1 < M
  · rw [Nat.mod_eq_of_lt hm] at hsca
    rcases hkca with ⟨hkh, hkmin⟩ | ⟨hkall, hkmin⟩
    · have hcapt : ∀ v ∈ V, k ≤ v → h + 1 ≤ v := fun v hv hkv => by
        have h1 := hkmin v (List.mem_cons_of_mem _ hv) hkv
        have h2 : v ≠ h := fun c => hh (c ▸ hv)
        omega
      rcases hsca with ⟨hhs, hsmin⟩ | ⟨hsall, hsmin⟩
      · exact Or.inl ⟨by omega,
          fun v hv hkv => hsmin v (List.mem_cons_of_mem _ hv) (hcapt v hv hkv)⟩
      · have hallk : ∀ v ∈ V, v < k := fun v hv => by
          have h1 := hsall v (List.mem_cons_of_mem _ hv)
          have h2 : v ≠ h := fun c => hh (c ▸ hv)
          by_contra hc
          have := hcapt v hv (by omega)
          omega
        exact Or.inr ⟨hallk, fun v hv => hsmin v (List.mem_cons_of_mem _ hv)⟩
    · have hgt : ∀ v ∈ V, h + 1 ≤ v := fun v hv => by
        have h1 := hkmin v (List.mem_cons_of_mem _ hv)
        have h2 : v ≠ h := fun c => hh (c ▸ hv)
        omega
      rcases hsca with ⟨hhs, hsmin⟩ | ⟨hsall, hsmin⟩
      · exact Or.inr ⟨fun v hv => hkall v (List.mem_cons_of_mem _ hv),
          fun v hv => hsmin v (List.mem_cons_of_mem _ hv) (hgt v hv)⟩
      · exfalso
        obtain ⟨v₀, hv₀⟩ := List.exists_mem_of_ne_nil V hne
        have h1 := hsall v₀ (List.mem_cons_of_mem _ hv₀)
        have h2 := hgt v₀ hv₀
        omega
  · have hmod : (h + 1) % M = 0 := by
      have he : h + 1 = M := by omega
      rw [he]
      exact Nat.mod_self M
    rw [hmod] at hsca
    have hlt : ∀ v ∈ V, v < h := fun v hv => by
      have h1 := hVM v hv
      have h2 : v ≠ h := fun c => hh (c ▸ hv)
      omega
    have hsmin : ∀ v ∈ h :: V, s ≤ v := by
      rcases hsca with ⟨-, hsmin⟩ | ⟨-, hsmin⟩
      · exact fun v hv => hsmin v hv (Nat.zero_le v)
      · exact hsmin
    rcases hkca with ⟨hkh, hkmin⟩ | ⟨hkall, hkmin⟩
    · have hallk : ∀ v ∈ V, v < k := fun v hv => by
        by_contra hc
        have h1 := hkmin v (List.mem_cons_of_mem _ hv) (by omega)
        have h2 := hlt v hv
        omega
      exact Or.inr ⟨hallk, fun v hv => hsmin v (List.mem_cons_of_mem _ hv)⟩
    · exfalso
      obtain ⟨v₀, hv₀⟩ := List.exists_mem_of_ne_nil V hne
      have h1 := hkmin v₀ (List.mem_cons_of_mem _ hv₀)
      have h2 := hlt v₀ hv₀
      omega

/-! ## The bisect computation realizes `targetPos` -/

/-- On a `≤`-sorted list, when some element is `≥ k`, the element at the
`bisect_left` index is the minimum element `≥ k`. -/
theorem sorted_getD_countP_min :
    ∀ {S : List Nat}, List.Sorted (· ≤ ·) S → ∀ {k p : Nat},
      (S.filter (fun v => decide (k ≤ v))).min? = some p →
      S.getD (S.countP (fun v => decide (v < k))) 0 = p := by
  intro S
  induction S with
  | nil => intro _ k p hp; cases hp
  | cons a S' ih =>
    intro hs k p hp
    rw [List.sorted_cons] at hs
    obtain ⟨ha, hs'⟩ := hs
    by_cases hak : a < k
    · have hcount : (a :: S').countP (fun v => decide (v < k))
          = S'.countP (fun v => decide (v < k)) + 1 := by
        rw [List.countP_cons]
        simp [hak]
      have hka : ¬ k ≤ a := by omega
      have hfilter : (a :: S').filter (fun v => decide (k ≤ v))
          = S'.filter (fun v => decide (k ≤ v)) := by
        rw [List.filter_cons]
        simp [hka]
      rw [hfilter] at hp
      rw [hcount, List.getD_cons_succ]
      exact ih hs' hp
    · have hcount : (a :: S').countP (fun v => decide (v < k)) = 0 := by
        rw [List.countP_cons]
        have h1 : S'.countP (fun v => decide (v < k)) = 0 := by
          rw [List.countP_eq_zero]
          intro b hb
          have := ha b hb
          simp only [decide_eq_true_eq]
          omega
        simp [h1, hak]
      have hka : k ≤ a := by omega
      have hfilter : (a :: S').filter (fun v => decide (k ≤ v))
          = a :: S'.filter (fun v => decide (k ≤ v)) := by
        rw [List.filter_cons]
        simp [hka]
      rw [hfilter] at hp
      obtain ⟨hpmem, hple⟩ := List.min?_eq_some_iff'.1 hp
      have hpa : p = a := by
        have h2 := hple a (List.mem_cons_self _ _)
        rcases List.mem_cons.1 hpmem with rfl | hv
        · rfl
        · have := ha p ((List.mem_filter.1 hv).1)
          omega
      rw [hcount, List.getD_cons_zero, hpa]

/-- On a non-empty `≤`-sorted list the head is the minimum. -/
theorem sorted_getD_zero_min {S : List Nat} (hs : List.Sorted (· ≤ ·) S) {p : Nat}
    (hp : S.min? = some p) : S.getD 0 0 = p := by
  cases S with
  | nil => cases hp
  | cons a S' =>
    rw [List.sorted_cons] at hs
    obtain ⟨ha, -⟩ := hs
    obtain ⟨hpmem, hple⟩ := List.min?_eq_some_iff'.1 hp
    have hpa : p = a := by
      have h2 := hple a (List.mem_cons_self _ _)
      rcases List.mem_cons.1 hpmem with rfl | hv
      · rfl
      · have := ha p hv
        omega
    rw [List.getD_cons_zero, hpa]

/-- The bisect-and-wrap index computation of
`_find_closest_next_node_for_hash` lands exactly on `targetPos`. -/
theorem sorted_bisect_getD {S : List Nat} (hs : List.Sorted (· ≤ ·) S) {k p : Nat}
    (hp : targetPos S k = some p) :
    S.getD (if ShardManager.bisect_left S k = S.length then 0
            else ShardManager.bisect_left S k) 0 = p := by
  rw [targetPos] at hp
  cases hm : (S.filter (fun v => decide (k ≤ v))).min? with
  | some q =>
    rw [hm] at hp
    injection hp with hp
    subst hp
    have hlt : ShardManager.bisect_left S k < S.length := by
      rw [ShardManager.bisect_left]
      rcases Nat.lt_or_ge (S.countP (fun v => decide (v < k))) S.length with h | h
      · exact h
      · exfalso
        have hle := List.countP_le_length (fun v => decide (v < k)) (l := S)
        have heq : S.countP (fun v => decide (v < k)) = S.length := by omega
        have hql := (List.min?_eq_some_iff'.1 hm).1
        rw [List.mem_filter, decide_eq_true_eq] at hql
        have := List.countP_eq_length.1 heq q hql.1
        simp only [decide_eq_true_eq] at this
        omega
    rw [if_neg (Nat.ne_of_lt hlt), ShardManager.bisect_left]
    exact sorted_getD_countP_min hs hm
  | none =>
    rw [hm] at hp
    have hlen : ShardManager.bisect_left S k = S.length := by
      rw [ShardManager.bisect_left, List.countP_eq_length]
      intro v hv
      rw [List.min?_eq_none_iff, List.filter_eq_nil_iff] at hm
      have := hm v hv
      simp only [decide_eq_true_eq] at this ⊢
      omega
    rw [if_pos hlen]
    exact sorted_getD_zero_min hs hp

/-- `_find_closest_next_node_for_hash` computes: look up the node at
`targetPos` of the ring's position multiset. -/
theorem resolve_spec (sm : ShardManager) (k : Nat)
    (hne : ¬ sm.shards_to_idx.isEmpty = true) {p : Nat}
    (hp : targetPos (dvalues sm.shards_to_idx) k = some p) :
    ShardManager._find_closest_next_node_for_hash sm k
      = match dlookup sm.idx_to_shards p with
        | some n => .ok n
        | none => .error .keyError := by
  have hgetD := sorted_bisect_getD
    (List.sorted_insertionSort (· ≤ ·) (dvalues sm.shards_to_idx))
    (by rw [targetPos_perm (List.perm_insertionSort (· ≤ ·) (dvalues sm.shards_to_idx))]
        exact hp)
  rw [ShardManager._find_closest_next_node_for_hash, if_neg hne]
  simp only
  rw [hgetD]

theorem resolve_of_targetPos {sm : ShardManager} {k p : Nat} {n : String}
    (hne : ¬ sm.shards_to_idx.isEmpty = true)
    (hp : targetPos (dvalues sm.shards_to_idx) k = some p)
    (hn : dlookup sm.idx_to_shards p = some n) :
    ShardManager._find_closest_next_node_for_hash sm k = .ok n := by
  rw [resolve_spec sm k hne hp, hn]

theorem resolve_ok_targetPos {sm : ShardManager} {k : Nat} {n : String}
    (hne : ¬ sm.shards_to_idx.isEmpty = true)
    (h : ShardManager._find_closest_next_node_for_hash sm k = .ok n) :
    ∃ p, targetPos (dvalues sm.shards_to_idx) k = some p ∧
      dlookup sm.idx_to_shards p = some n := by
  have hvne : dvalues sm.shards_to_idx ≠ [] := by
    intro hc
    rw [List.isEmpty_iff] at hne
    exact hne (by
      cases hsm : sm.shards_to_idx with
      | nil => rfl
      | cons e rest => rw [hsm] at hc; cases hc)
  obtain ⟨p, hp, -⟩ := targetPos_total hvne k
  rw [resolve_spec sm k hne hp] at h
  cases hl : dlookup sm.idx_to_shards p with
  | none => rw [hl] at h; cases h
  | some m =>
    rw [hl] at h
    injection h with h
    subst h
    exact ⟨p, hp, hl⟩

/-! ## Further dict lemmas for the conservation proof -/

theorem except_ok_bind {ε α β : Type} (a : α) (f : α → Except ε β) :
    (Except.ok a : Except ε α) >>= f = f a := rfl

theorem hash_congr {sm sm' : ShardManager} (h : sm'.max_limit = sm.max_limit) (x : String) :
    ShardManager._hash sm' x = ShardManager._hash sm x := by
  rw [ShardManager._hash, ShardManager._hash, h]

theorem dinsert_of_dlookup_none {α β : Type} [DecidableEq α] {m : List (α × β)} {k : α}
    (h : dlookup m k = none) (v : β) : dinsert m k v = m ++ [(k, v)] := by
  induction m with
  | nil => rfl
  | cons e rest ih =>
    obtain ⟨a, b⟩ := e
    rw [dlookup] at h
    by_cases hk : a = k
    · rw [if_pos hk] at h
      cases h
    · rw [if_neg hk] at h
      rw [dinsert, if_neg hk, List.cons_append, ih h]

theorem dvalues_dinsert_fresh {α β : Type} [DecidableEq α] {m : List (α × β)} {k : α}
    (h : dlookup m k = none) (v : β) : dvalues (dinsert m k v) = dvalues m ++ [v] := by
  rw [dinsert_of_dlookup_none h v, dvalues, dvalues, List.map_append]
  rfl

theorem dvalues_mem_exists {α β : Type} {m : List (α × β)} {v : β}
    (h : v ∈ dvalues m) : ∃ k, (k, v) ∈ m := by
  rw [dvalues] at h
  obtain ⟨⟨k, v'⟩, he, hv⟩ := List.mem_map.1 h
  cases hv
  exact ⟨k, he⟩

theorem dlookup_of_mem_nodup {α β : Type} [DecidableEq α] {m : List (α × β)} {k : α} {v : β}
    (h : (k, v) ∈ m) (hnodup : (m.map Prod.fst).Nodup) : dlookup m k = some v := by
  induction m with
  | nil => cases h
  | cons e rest ih =>
    obtain ⟨a, b⟩ := e
    rw [List.map_cons, List.nodup_cons] at hnodup
    obtain ⟨hanotin, hnodup'⟩ := hnodup
    rcases List.mem_cons.1 h with heq | hmem
    · injection heq with h1 h2
      subst h1
      subst h2
      rw [dlookup, if_pos rfl]
    · have hk : k ∈ rest.map Prod.fst := List.mem_map.2 ⟨(k, v), hmem, rfl⟩
      have hak : a ≠ k := fun c => hanotin (c ▸ hk)
      rw [dlookup, if_neg hak]
      exact ih hmem hnodup'

theorem map_derase_perm {β : Type} (F : String × Nat → β) :
    ∀ {m : List (String × Nat)} {k : String} {v : Nat},
      dlookup m k = some v →
      (m.map F).Perm (F (k, v) :: (derase m k).map F) := by
  intro m
  induction m with
  | nil => intro k v h; cases h
  | cons e rest ih =>
    intro k v h
    obtain ⟨a, b⟩ := e
    rw [dlookup] at h
    by_cases hk : a = k
    · rw [if_pos hk] at h
      injection h with h
      subst h
      subst hk
      rw [derase, if_pos rfl]
      exact List.Perm.refl _
    · rw [if_neg hk] at h
      rw [derase, if_neg hk, List.map_cons, List.map_cons]
      exact ((ih h).cons (F (a, b))).trans (List.Perm.swap _ _ _)

/-- Replacing the rows of the single key `next` in a keyed read (and carrying
the difference `extra` outside) preserves the flattened multiset. -/
theorem flatten_update_perm :
    ∀ (L : List (String × Nat)) (f g : String → List Row) (next : String) (extra : List Row),
      (∀ m ∈ L.map Prod.fst, m ≠ next → g m = f m) →
      (g next ++ extra).Perm (f next) →
      next ∈ L.map Prod.fst → (L.map Prod.fst).Nodup →
      ((L.map (fun e => g e.1)).flatten ++ extra).Perm (L.map (fun e => f e.1)).flatten := by
  intro L
  induction L with
  | nil =>
    intro f g next extra hgf hperm hmem hnodup
    cases hmem
  | cons e rest ih =>
    intro f g next extra hgf hperm hmem hnodup
    obtain ⟨a, b⟩ := e
    rw [List.map_cons, List.nodup_cons] at hnodup
    obtain ⟨hanotin, hnodup'⟩ := hnodup
    rw [List.map_cons, List.map_cons, List.flatten_cons, List.flatten_cons]
    by_cases ha : a = next
    · subst ha
      have hrest_eq : (rest.map (fun e => g e.1)) = (rest.map (fun e => f e.1)) := by
        apply List.map_congr_left
        intro e' he'
        have hmem' : e'.1 ∈ rest.map Prod.fst := List.mem_map.2 ⟨e', he', rfl⟩
        exact hgf e'.1 (List.mem_cons_of_mem _ hmem') (fun c => hanotin (c ▸ hmem'))
      rw [hrest_eq, List.append_assoc]
      refine List.Perm.trans (List.Perm.append_left (g a) List.perm_append_comm) ?_
      rw [← List.append_assoc]
      exact hperm.append_right _
    · have hga : g a = f a := hgf a (List.mem_cons_self _ _) ha
      have hmem' : next ∈ rest.map Prod.fst := by
        rcases List.mem_cons.1 hmem with heq | hmem'
        · exact absurd heq.symm ha
        · exact hmem'
      rw [hga, List.append_assoc]
      exact List.Perm.append_left (f a)
        (ih f g next extra (fun m hm => hgf m (List.mem_cons_of_mem _ hm)) hperm hmem' hnodup')

/-! ## Exact-run lemmas for the rebalance loops -/

theorem deleteLoop_run (node : String) :
    ∀ (ids : List String) (fs : FS) (rows : List Row),
      dlookup fs (ShardManager._get_node_config node) = some rows →
      ∃ fs2 tr2, ShardManager.deleteLoop node ids fs = .ok (fs2, tr2) ∧
        dlookup fs2 (ShardManager._get_node_config node)
          = some (rows.filter (fun r => decide (r.headD "" ∉ ids))) ∧
        ∀ q, q ≠ ShardManager._get_node_config node → dlookup fs2 q = dlookup fs q := by
  intro ids
  induction ids with
  | nil =>
    intro fs rows hrows
    refine ⟨fs, [], rfl, ?_, fun q hq => rfl⟩
    rw [hrows]
    have hfid : rows.filter (fun r => decide (r.headD "" ∉ ([] : List String))) = rows :=
      List.filter_eq_self.2 (fun a _ => by simp)
    rw [hfid]
  | cons id rest ih =>
    intro fs rows hrows
    have hdel : ShardManager._delete_by_id_from_node fs id node
        = .ok (dinsert fs (ShardManager._get_node_config node)
            (rows.filter (fun r => ¬ r.headD "" == id))) := by
      rw [ShardManager._delete_by_id_from_node, hrows]
    obtain ⟨fs2, tr2, hloop, hcont, hother⟩ :=
      ih (dinsert fs (ShardManager._get_node_config node)
            (rows.filter (fun r => ¬ r.headD "" == id)))
        (rows.filter (fun r => ¬ r.headD "" == id)) (dlookup_dinsert_self ..)
    refine ⟨fs2, Ev.del id node :: tr2, ?_, ?_, ?_⟩
    · rw [ShardManager.deleteLoop, hdel, except_ok_bind, hloop, except_ok_bind]
    · rw [hcont, List.filter_filter]
      congr 1
      apply List.filter_congr
      intro r hr
      simp [List.mem_cons, not_or, Bool.and_comm]
    · intro q hq
      rw [hother q hq, dlookup_dinsert_ne _ _ _ _ hq]

theorem removalMoveLoop_run (next : String) :
    ∀ (rows : List Row) (fs : FS) (acc : List Row),
      dlookup fs (ShardManager._get_node_config next) = some acc →
      ∃ fs1 tr1, ShardManager.removalMoveLoop next rows fs
          = .ok (fs1, rows.map (fun row => row.headD ""), tr1) ∧
        dlookup fs1 (ShardManager._get_node_config next) = some (acc ++ rows) ∧
        ∀ q, q ≠ ShardManager._get_node_config next → dlookup fs1 q = dlookup fs q := by
  intro rows
  induction rows with
  | nil =>
    intro fs acc hacc
    refine ⟨fs, [], rfl, ?_, fun q hq => rfl⟩
    rw [hacc, List.append_nil]
  | cons item rest ih =>
    intro fs acc hacc
    have hins : ShardManager._insert_data_to_node fs item next
        = .ok (dinsert fs (ShardManager._get_node_config next) (acc ++ [item])) := by
      rw [ShardManager._insert_data_to_node, hacc]
    obtain ⟨fs1, tr1, hloop, hcont, hother⟩ :=
      ih (dinsert fs (ShardManager._get_node_config next) (acc ++ [item]))
        (acc ++ [item]) (dlookup_dinsert_self ..)
    refine ⟨fs1, Ev.ins (item.headD "") next :: tr1, ?_, ?_, ?_⟩
    · rw [ShardManager.removalMoveLoop, hins, except_ok_bind, hloop, except_ok_bind]
      rfl
    · rw [hcont, List.append_assoc]
      rfl
    · intro q hq
      rw [hother q hq, dlookup_dinsert_ne _ _ _ _ hq]

theorem addMoveLoop_run (sm' : ShardManager) (next name : String) (hnn : name ≠ next) :
    ∀ (rows : List Row) (fs : FS) (acc : List Row),
      (∀ row ∈ rows, row.length = 3 ∧
        (ShardManager._find_closest_next_node_for_key sm' (row.headD "") = .ok next ∨
         ShardManager._find_closest_next_node_for_key sm' (row.headD "") = .ok name)) →
      dlookup fs (ShardManager._get_node_config name) = some acc →
      ∃ fs1 tr1, ShardManager.addMoveLoop sm' next rows fs = .ok (fs1,
          (rows.filter (fun row => decide (ShardManager._find_closest_next_node_for_key sm'
            (row.headD "") = .ok name))).map (fun row => row.headD ""), tr1) ∧
        dlookup fs1 (ShardManager._get_node_config name)
          = some (acc ++ rows.filter (fun row =>
              decide (ShardManager._find_closest_next_node_for_key sm'
                (row.headD "") = .ok name))) ∧
        ∀ q, q ≠ ShardManager._get_node_config name → dlookup fs1 q = dlookup fs q := by
  intro rows
  induction rows with
  | nil =>
    intro fs acc hrows hacc
    refine ⟨fs, [], rfl, ?_, fun q hq => rfl⟩
    rw [hacc, List.filter_nil, List.append_nil]
  | cons item rest ih =>
    intro fs acc hrows hacc
    obtain ⟨hlen, hdisj⟩ := hrows item (List.mem_cons_self _ _)
    rcases hdisj with hres | hres
    · have hpred : (decide (ShardManager._find_closest_next_node_for_key sm'
          (item.headD "") = .ok name)) = false := by
        rw [hres]
        simp only [Except.ok.injEq]
        exact decide_eq_false (fun c => hnn c.symm)
      have hfeq : (item :: rest).filter (fun row =>
            decide (ShardManager._find_closest_next_node_for_key sm' (row.headD "") = .ok name))
          = rest.filter (fun row =>
            decide (ShardManager._find_closest_next_node_for_key sm' (row.headD "") = .ok name)) := by
        rw [List.filter_cons]
        simp only [hpred, Bool.false_eq_true, if_false]
      obtain ⟨fs1, tr1, hloop, hcont, hother⟩ :=
        ih fs acc (fun row hrow => hrows row (List.mem_cons_of_mem _ hrow)) hacc
      refine ⟨fs1, tr1, ?_, ?_, hother⟩
      · rw [ShardManager.addMoveLoop, hres, except_ok_bind, if_pos rfl, hloop, hfeq]
      · rw [hcont, hfeq]
    · have hpred : (decide (ShardManager._find_closest_next_node_for_key sm'
          (item.headD "") = .ok name)) = true := decide_eq_true hres
      have hfeq : (item :: rest).filter (fun row =>
            decide (ShardManager._find_closest_next_node_for_key sm' (row.headD "") = .ok name))
          = item :: rest.filter (fun row =>
            decide (ShardManager._find_closest_next_node_for_key sm' (row.headD "") = .ok name)) := by
        rw [List.filter_cons]
        simp only [hpred, if_true]
      have hinsd : ShardManager.insert_data sm' fs item
          = .ok (dinsert fs (ShardManager._get_node_config name) (acc ++ [item]),
                 [Ev.ins (item.headD "") name]) := by
        rw [ShardManager.insert_data, if_neg (by simp [schema, hlen])]
        simp only
        rw [hres, except_ok_bind, ShardManager._insert_data_to_node, hacc, except_ok_bind]
      obtain ⟨fs1, tr1, hloop, hcont, hother⟩ :=
        ih (dinsert fs (ShardManager._get_node_config name) (acc ++ [item])) (acc ++ [item])
          (fun row hrow => hrows row (List.mem_cons_of_mem _ hrow)) (dlookup_dinsert_self ..)
      refine ⟨fs1, [Ev.ins (item.headD "") name] ++ tr1, ?_, ?_, ?_⟩
      · rw [ShardManager.addMoveLoop, hres, except_ok_bind, if_neg hnn, hinsd, except_ok_bind]
        simp only
        rw [hloop, except_ok_bind]
        simp only
        rw [hfeq]
        rfl
      · rw [hcont, hfeq, List.append_assoc]
        rfl
      · intro q hq
        rw [hother q hq, dlookup_dinsert_ne _ _ _ _ hq]

/-! ## Small helper facts for the conservation proofs -/

theorem read_all_of_dlookup_eq {fs fs' : FS} {n : String}
    (h : dlookup fs (ShardManager._get_node_config n)
       = dlookup fs' (ShardManager._get_node_config n)) :
    ShardManager._read_all_data fs n = ShardManager._read_all_data fs' n := by
  rw [ShardManager._read_all_data, ShardManager._read_all_data, h]

theorem read_all_of_some {fs : FS} {n : String} {rows : List Row}
    (h : dlookup fs (ShardManager._get_node_config n) = some rows) :
    ShardManager._read_all_data fs n = rows := by
  rw [ShardManager._read_all_data, h]

theorem dinsert_ne_nil {α β : Type} [DecidableEq α] (m : List (α × β)) (k : α) (v : β) :
    dinsert m k v ≠ [] := by
  cases m with
  | nil => simp [dinsert]
  | cons e rest =>
    obtain ⟨a, b⟩ := e
    rw [dinsert]
    by_cases hk : a = k
    · rw [if_pos hk]
      simp
    · rw [if_neg hk]
      simp

theorem hash_lt {sm : ShardManager} (h : 0 < sm.max_limit) (x : String) :
    ShardManager._hash sm x < sm.max_limit := Nat.mod_lt _ h

theorem not_isEmpty_of_ne_nil {α : Type} {l : List α} (h : l ≠ []) :
    ¬ l.isEmpty = true := by
  rw [List.isEmpty_iff]
  exact h

theorem dlookup_singleton_iff {α β : Type} [DecidableEq α] {a k : α} {b v : β} :
    dlookup [(a, b)] k = some v ↔ k = a ∧ v = b := by
  rw [dlookup]
  by_cases hk : a = k
  · subst hk
    simp [dlookup]
    exact comm
  · rw [if_neg hk]
    simp [dlookup]
    exact fun c => absurd c.symm hk

/-- The values of a well-formed ring are the hashes of its members, hence
below `max_limit`. -/
theorem wf_values_lt {sm : ShardManager} {fs : FS} (hwf : WF sm fs) :
    ∀ v ∈ dvalues sm.shards_to_idx, v < sm.max_limit := by
  intro v hv
  obtain ⟨n, hn⟩ := dvalues_mem_exists hv
  have hl := dlookup_of_mem_nodup hn hwf.shards_nodup
  rw [hwf.hash_pos n v hl]
  exact hash_lt (by rw [hwf.maxlim]; omega) n

/-- In a well-formed ring, positions are injective across members. -/
theorem wf_pos_inj {sm : ShardManager} {fs : FS} (hwf : WF sm fs)
    {n₁ n₂ : String} {p : Nat} (h₁ : dlookup sm.shards_to_idx n₁ = some p)
    (h₂ : dlookup sm.shards_to_idx n₂ = some p) : n₁ = n₂ := by
  have e₁ := (hwf.consistent n₁ p).1 h₁
  have e₂ := (hwf.consistent n₂ p).1 h₂
  rw [e₁] at e₂
  injection e₂


/-- Addition rebalance, non-empty original ring: with the new node already in
the ring dicts and its empty container created, the rebalance succeeds, the
multiset of stored rows is conserved, and well-formedness is re-established. -/
theorem add_rebalance_conservation {sm : ShardManager} {fs : FS} {name : String}
    (sm' : ShardManager)
    (hS : sm'.shards_to_idx = dinsert sm.shards_to_idx name (ShardManager._hash sm name))
    (hI : sm'.idx_to_shards = dinsert sm.idx_to_shards (ShardManager._hash sm name) name)
    (hM : sm'.max_limit = sm.max_limit)
    (hwf : WF sm fs)
    (hfresh : dlookup sm.shards_to_idx name = none)
    (hposf : ∀ n p, dlookup sm.shards_to_idx n = some p → p ≠ ShardManager._hash sm name)
    (hconf : ∀ n p, dlookup sm.shards_to_idx n = some p →
      ShardManager._get_node_config n ≠ ShardManager._get_node_config name)
    (hne : sm.shards_to_idx ≠ []) :
    ∃ fs' tr, ShardManager._rebalance_data_on_node_addition sm'
        (ShardManager._create_node fs name) name = .ok (fs', tr) ∧
      (clusterRows sm' fs').Perm (clusterRows sm fs) ∧ WF sm' fs' := by
  have hMpos : 0 < sm.max_limit := by rw [hwf.maxlim]; omega
  have hV : dvalues sm'.shards_to_idx
      = dvalues sm.shards_to_idx ++ [ShardManager._hash sm name] := by
    rw [hS, dvalues_dinsert_fresh hfresh]
  have hVperm : (dvalues sm'.shards_to_idx).Perm
      (ShardManager._hash sm name :: dvalues sm.shards_to_idx) := by
    rw [hV]
    exact List.perm_append_comm
  have hVne : dvalues sm.shards_to_idx ≠ [] := by
    intro hc
    rw [dvalues] at hc
    exact hne (List.map_eq_nil_iff.1 hc)
  have hhV : ShardManager._hash sm name ∉ dvalues sm.shards_to_idx := by
    intro hc
    obtain ⟨n, hn⟩ := dvalues_mem_exists hc
    exact hposf n _ (dlookup_of_mem_nodup hn hwf.shards_nodup) rfl
  have hVlt := wf_values_lt hwf
  have hhlt : ShardManager._hash sm name < sm.max_limit := hash_lt hMpos name
  obtain ⟨s, hsT, -⟩ := targetPos_total
    (List.cons_ne_nil (ShardManager._hash sm name) (dvalues sm.shards_to_idx))
    ((ShardManager._hash sm name + 1) % sm.max_limit)
  obtain ⟨hsV, hsh⟩ := targetPos_next_mem hVlt hhlt hhV hVne hsT
  have hs' : targetPos (dvalues sm'.shards_to_idx)
      ((ShardManager._hash sm name + 1) % sm.max_limit) = some s := by
    rw [targetPos_perm hVperm]
    exact hsT
  obtain ⟨nx, hnx_mem⟩ := dvalues_mem_exists hsV
  have hnx : dlookup sm.shards_to_idx nx = some s :=
    dlookup_of_mem_nodup hnx_mem hwf.shards_nodup
  have hnxname : nx ≠ name := by
    intro c
    rw [c, hfresh] at hnx
    cases hnx
  have hidxs : dlookup sm.idx_to_shards s = some nx := (hwf.consistent nx s).1 hnx
  have hidx's : dlookup sm'.idx_to_shards s = some nx := by
    rw [hI, dlookup_dinsert_ne _ _ _ _ hsh]
    exact hidxs
  have hne' : ¬ sm'.shards_to_idx.isEmpty = true := by
    rw [hS]
    exact not_isEmpty_of_ne_nil (dinsert_ne_nil _ _ _)
  have hneK : ¬ sm.shards_to_idx.isEmpty = true := not_isEmpty_of_ne_nil hne
  have hres_next : ShardManager._find_closest_next_node_for_hash sm'
      ((ShardManager._hash sm' name + 1) % sm'.max_limit) = .ok nx := by
    rw [hash_congr hM, hM]
    exact resolve_of_targetPos hne' hs' hidx's
  obtain ⟨R0, hR0⟩ := Option.isSome_iff_exists.1 (hwf.containers nx s hnx)
  have hReadfs : ShardManager._read_all_data fs nx = R0 := read_all_of_some hR0
  have hcfgnx : ShardManager._get_node_config nx ≠ ShardManager._get_node_config name :=
    hconf nx s hnx
  have hfs1name : dlookup (ShardManager._create_node fs name)
      (ShardManager._get_node_config name) = some [] := by
    rw [ShardManager._create_node]
    exact dlookup_dinsert_self ..
  have hfs1other : ∀ q, q ≠ ShardManager._get_node_config name →
      dlookup (ShardManager._create_node fs name) q = dlookup fs q := by
    intro q hq
    rw [ShardManager._create_node, dlookup_dinsert_ne _ _ _ _ hq]
  have hR1 : ShardManager._read_all_data (ShardManager._create_node fs name) nx = R0 := by
    refine read_all_of_some ?_
    rw [hfs1other _ hcfgnx]
    exact hR0
  have hRfacts : ∀ row ∈ R0, row.length = 3 ∧
      ShardManager._find_closest_next_node_for_key sm (row.headD "") = .ok nx := by
    intro row hr
    refine hwf.placement nx s hnx row ?_
    rw [hReadfs]
    exact hr
  -- resolution transfer from the old ring to the extended ring
  have htrans : ∀ (x : String) (n : String) (q : Nat),
      dlookup sm.shards_to_idx n = some q →
      ShardManager._find_closest_next_node_for_key sm x = .ok n →
      ShardManager._find_closest_next_node_for_key sm' x = .ok n ∨
      (ShardManager._find_closest_next_node_for_key sm' x = .ok name ∧ n = nx) := by
    intro x n q hnq hold
    rw [ShardManager._find_closest_next_node_for_key] at hold
    obtain ⟨q0, hq0T, hq0idx⟩ := resolve_ok_targetPos hneK hold
    have hq0 : q0 = q := by
      have := (hwf.consistent n q0).2 hq0idx
      rw [this] at hnq
      injection hnq
    subst hq0
    obtain ⟨q', hq'T, -⟩ := @targetPos_total (dvalues sm'.shards_to_idx)
      (by rw [hV]; simp) (ShardManager._hash sm x)
    have hq'T2 : targetPos (ShardManager._hash sm name :: dvalues sm.shards_to_idx)
        (ShardManager._hash sm x) = some q' := by
      rw [← targetPos_perm hVperm]
      exact hq'T
    have hkey' : ShardManager._find_closest_next_node_for_key sm' x
        = ShardManager._find_closest_next_node_for_hash sm' (ShardManager._hash sm x) := by
      rw [ShardManager._find_closest_next_node_for_key, hash_congr hM]
    by_cases hq'h : q' = ShardManager._hash sm name
    · right
      constructor
      · rw [hkey']
        refine resolve_of_targetPos hne' hq'T ?_
        rw [hq'h, hI]
        exact dlookup_dinsert_self ..
      · have hA2 := targetPos_cons_self hVlt hhlt hhV hVne (hq'h ▸ hq'T2)
        rw [hsT, hq0T] at hA2
        injection hA2 with hA2
        subst hA2
        exact wf_pos_inj hwf hnq hnx
    · have hA1 := targetPos_cons_ne hVne hq'T2 hq'h
      rw [hq0T] at hA1
      injection hA1 with hA1
      subst hA1
      left
      rw [hkey']
      refine resolve_of_targetPos hne' hq'T ?_
      rw [hI, dlookup_dinsert_ne _ _ _ _ (hposf n q0 hnq)]
      exact (hwf.consistent n q0).1 hnq
  have hrows : ∀ row ∈ R0, row.length = 3 ∧
      (ShardManager._find_closest_next_node_for_key sm' (row.headD "") = .ok nx ∨
       ShardManager._find_closest_next_node_for_key sm' (row.headD "") = .ok name) := by
    intro row hr
    obtain ⟨hlen, hres⟩ := hRfacts row hr
    refine ⟨hlen, ?_⟩
    rcases htrans (row.headD "") nx s hnx hres with h | ⟨h, -⟩
    · exact Or.inl h
    · exact Or.inr h
  obtain ⟨fs2, tr1, hloop, hcont2, hother2⟩ :=
    addMoveLoop_run sm' nx name (Ne.symm hnxname) R0 (ShardManager._create_node fs name) []
      hrows hfs1name
  have hcontnx2 : dlookup fs2 (ShardManager._get_node_config nx) = some R0 := by
    rw [hother2 _ hcfgnx, hfs1other _ hcfgnx]
    exact hR0
  obtain ⟨fs3, tr2, hdloop, hcont3, hother3⟩ := deleteLoop_run nx
    ((R0.filter (fun row => decide (ShardManager._find_closest_next_node_for_key sm'
        (row.headD "") = .ok name))).map (fun row => row.headD ""))
    fs2 R0 hcontnx2
  have hreb : ShardManager._rebalance_data_on_node_addition sm'
      (ShardManager._create_node fs name) name = .ok (fs3, tr1 ++ tr2) := by
    rw [ShardManager._rebalance_data_on_node_addition, hres_next, except_ok_bind]
    simp only
    rw [hR1, hloop, except_ok_bind]
    simp only
    rw [hdloop, except_ok_bind]
  -- names for the two row classes
  have hkeep_eq : R0.filter (fun r => decide (r.headD "" ∉
      (R0.filter (fun row => decide (ShardManager._find_closest_next_node_for_key sm'
        (row.headD "") = .ok name))).map (fun row => row.headD "")))
      = R0.filter (fun r => ! decide (ShardManager._find_closest_next_node_for_key sm'
        (r.headD "") = .ok name)) := by
    apply List.filter_congr
    intro r hr
    by_cases hp : decide (ShardManager._find_closest_next_node_for_key sm'
        (r.headD "") = .ok name) = true
    · rw [hp]
      refine decide_eq_false ?_
      intro hnot
      exact hnot (List.mem_map.2 ⟨r, List.mem_filter.2 ⟨hr, hp⟩, rfl⟩)
    · rw [Bool.not_eq_true] at hp
      rw [hp]
      refine decide_eq_true ?_
      intro hmem
      obtain ⟨r', hr', heq⟩ := List.mem_map.1 hmem
      obtain ⟨-, hp'⟩ := List.mem_filter.1 hr'
      rw [heq] at hp'
      rw [hp'] at hp
      cases hp
  have hread_name : ShardManager._read_all_data fs3 name
      = R0.filter (fun row => decide (ShardManager._find_closest_next_node_for_key sm'
          (row.headD "") = .ok name)) := by
    refine read_all_of_some ?_
    rw [hother3 _ (Ne.symm hcfgnx), hcont2, List.nil_append]
  have hread_nx : ShardManager._read_all_data fs3 nx
      = R0.filter (fun r => ! decide (ShardManager._find_closest_next_node_for_key sm'
          (r.headD "") = .ok name)) := by
    rw [read_all_of_some hcont3, hkeep_eq]
  have hgf : ∀ m, m ∈ sm.shards_to_idx.map Prod.fst → m ≠ nx →
      ShardManager._read_all_data fs3 m = ShardManager._read_all_data fs m := by
    intro m hm hmnx
    obtain ⟨⟨m', b⟩, hmem, heq⟩ := List.mem_map.1 hm
    cases heq
    have hlm : dlookup sm.shards_to_idx m' = some b := dlookup_of_mem_nodup hmem hwf.shards_nodup
    have hcfgm : ShardManager._get_node_config m' ≠ ShardManager._get_node_config name :=
      hconf m' b hlm
    have hcfgmnx : ShardManager._get_node_config m' ≠ ShardManager._get_node_config nx := by
      intro c
      exact hmnx (hwf.config_inj m' b nx s hlm hnx c)
    refine read_all_of_dlookup_eq ?_
    rw [hother3 _ hcfgmnx, hother2 _ hcfgm, hfs1other _ hcfgm]
  have hnx_keys : nx ∈ sm.shards_to_idx.map Prod.fst := List.mem_map.2 ⟨(nx, s), hnx_mem, rfl⟩
  have hperm_piece : (ShardManager._read_all_data fs3 nx
      ++ R0.filter (fun row => decide (ShardManager._find_closest_next_node_for_key sm'
          (row.headD "") = .ok name))).Perm (ShardManager._read_all_data fs nx) := by
    rw [hread_nx, hReadfs]
    refine List.Perm.trans List.perm_append_comm ?_
    exact List.filter_append_perm _ R0
  have hflat := flatten_update_perm sm.shards_to_idx
    (fun m => ShardManager._read_all_data fs m) (fun m => ShardManager._read_all_data fs3 m)
    nx (R0.filter (fun row => decide (ShardManager._find_closest_next_node_for_key sm'
        (row.headD "") = .ok name)))
    hgf hperm_piece hnx_keys hwf.shards_nodup
  have hclusterNew : clusterRows sm' fs3
      = (sm.shards_to_idx.map (fun e => ShardManager._read_all_data fs3 e.1)).flatten
        ++ R0.filter (fun row => decide (ShardManager._find_closest_next_node_for_key sm'
            (row.headD "") = .ok name)) := by
    rw [clusterRows, hS, dinsert_of_dlookup_none hfresh, List.map_append, List.flatten_append]
    simp only [List.map_cons, List.map_nil, List.flatten_cons, List.flatten_nil, List.append_nil]
    rw [hread_name]
  refine ⟨fs3, tr1 ++ tr2, hreb, ?_, ?_⟩
  · rw [hclusterNew, clusterRows]
    exact hflat
  · constructor
    · rw [hM]
      exact hwf.maxlim
    · rw [hS]
      exact dinsert_nodup_fst hwf.shards_nodup _ _
    · rw [hI]
      exact dinsert_nodup_fst hwf.idx_nodup _ _
    · intro n p
      rw [hS, hI]
      by_cases hn : n = name
      · rw [hn]
        by_cases hp : p = ShardManager._hash sm name
        · subst hp
          exact iff_of_true (dlookup_dinsert_self ..) (dlookup_dinsert_self ..)
        · refine iff_of_false ?_ ?_
          · rw [dlookup_dinsert_self]
            intro c
            injection c with c
            exact hp c.symm
          · rw [dlookup_dinsert_ne _ _ _ _ hp]
            intro c
            have := (hwf.consistent name p).2 c
            rw [hfresh] at this
            cases this
      · by_cases hp : p = ShardManager._hash sm name
        · subst hp
          refine iff_of_false ?_ ?_
          · rw [dlookup_dinsert_ne _ _ _ _ hn]
            intro c
            exact hposf n _ c rfl
          · rw [dlookup_dinsert_self]
            intro c
            injection c with c
            exact hn c.symm
        · rw [dlookup_dinsert_ne _ _ _ _ hn, dlookup_dinsert_ne _ _ _ _ hp]
          exact hwf.consistent n p
    · intro n p hnp
      rw [hash_congr hM]
      rw [hS] at hnp
      by_cases hn : n = name
      · subst hn
        rw [dlookup_dinsert_self] at hnp
        injection hnp with hnp
        exact hnp.symm
      · rw [dlookup_dinsert_ne _ _ _ _ hn] at hnp
        exact hwf.hash_pos n p hnp
    · intro n₁ p₁ n₂ p₂ h₁ h₂ hc
      rw [hS] at h₁ h₂
      by_cases e₁ : n₁ = name
      · by_cases e₂ : n₂ = name
        · rw [e₁, e₂]
        · rw [dlookup_dinsert_ne _ _ _ _ e₂] at h₂
          subst e₁
          exact absurd hc.symm (hconf n₂ p₂ h₂)
      · by_cases e₂ : n₂ = name
        · rw [dlookup_dinsert_ne _ _ _ _ e₁] at h₁
          subst e₂
          exact absurd hc (hconf n₁ p₁ h₁)
        · rw [dlookup_dinsert_ne _ _ _ _ e₁] at h₁
          rw [dlookup_dinsert_ne _ _ _ _ e₂] at h₂
          exact hwf.config_inj n₁ p₁ n₂ p₂ h₁ h₂ hc
    · intro n p hnp
      rw [hS] at hnp
      by_cases hn : n = name
      · subst hn
        rw [hother3 _ (Ne.symm hcfgnx), hcont2]
        rfl
      · rw [dlookup_dinsert_ne _ _ _ _ hn] at hnp
        by_cases hnnx : n = nx
        · subst hnnx
          rw [hcont3]
          rfl
        · have hcfgm : ShardManager._get_node_config n ≠ ShardManager._get_node_config name :=
            hconf n p hnp
          have hcfgmnx : ShardManager._get_node_config n ≠ ShardManager._get_node_config nx :=
            fun c => hnnx (hwf.config_inj n p nx s hnp hnx c)
          rw [hother3 _ hcfgmnx, hother2 _ hcfgm, hfs1other _ hcfgm]
          exact hwf.containers n p hnp
    · intro n p hnp row hrow
      rw [hS] at hnp
      by_cases hn : n = name
      · subst hn
        rw [hread_name] at hrow
        obtain ⟨hrR, hP⟩ := List.mem_filter.1 hrow
        exact ⟨(hRfacts row hrR).1, of_decide_eq_true hP⟩
      · rw [dlookup_dinsert_ne _ _ _ _ hn] at hnp
        by_cases hnnx : n = nx
        · rw [hnnx] at hrow ⊢
          rw [hread_nx] at hrow
          obtain ⟨hrR, hnP⟩ := List.mem_filter.1 hrow
          obtain ⟨hlen, hres⟩ := hRfacts row hrR
          refine ⟨hlen, ?_⟩
          rcases htrans (row.headD "") nx s hnx hres with h | ⟨h, -⟩
          · exact h
          · rw [h] at hnP
            simp at hnP
        · have hrr := hgf n (List.mem_map.2 ⟨(n, p), dlookup_mem hnp, rfl⟩) hnnx
          rw [hrr] at hrow
          obtain ⟨hlen, hres⟩ := hwf.placement n p hnp row hrow
          refine ⟨hlen, ?_⟩
          rcases htrans (row.headD "") n p hnp hres with h | ⟨-, hnx'⟩
          · exact h
          · exact absurd hnx' hnnx

theorem mem_derase_of_ne {α β : Type} [DecidableEq α] {m : List (α × β)} {k' : α} {v' : β}
    (h : (k', v') ∈ m) {k : α} (hne : k' ≠ k) : (k', v') ∈ derase m k := by
  induction m with
  | nil => cases h
  | cons e rest ih =>
    obtain ⟨a, b⟩ := e
    rw [derase]
    by_cases hk : a = k
    · rw [if_pos hk]
      rcases List.mem_cons.1 h with heq | hmem
      · injection heq with h1 h2
        exact absurd (h1.trans hk) hne
      · exact hmem
    · rw [if_neg hk]
      rcases List.mem_cons.1 h with heq | hmem
      · rw [heq]
        exact List.mem_cons_self _ _
      · exact List.mem_cons_of_mem _ (ih hmem)

theorem targetPos_singleton (h k : Nat) : targetPos [h] k = some h := by
  rw [targetPos]
  by_cases hk : k ≤ h
  · simp [List.filter, hk]
  · simp [List.filter, hk]

/-- A successful rebalance makes the whole `add_node` succeed with the updated
ring dicts. -/
theorem add_node_ok_intro {sm : ShardManager} {fs : FS} {n : String}
    (hfresh : dlookup sm.shards_to_idx n = none) {fs' : FS} {tr : List Ev}
    (hreb : ShardManager._rebalance_data_on_node_addition
      { shards_to_idx := dinsert sm.shards_to_idx n (ShardManager._hash sm n)
        idx_to_shards := dinsert sm.idx_to_shards (ShardManager._hash sm n) n
        max_limit := sm.max_limit } (ShardManager._create_node fs n) n = .ok (fs', tr)) :
    ShardManager.add_node sm fs n
      = .ok ({ shards_to_idx := dinsert sm.shards_to_idx n (ShardManager._hash sm n)
               idx_to_shards := dinsert sm.idx_to_shards (ShardManager._hash sm n) n
               max_limit := sm.max_limit }, fs', tr) := by
  rw [ShardManager.add_node, if_neg (by rw [hfresh]; simp)]
  simp only
  rw [hreb, except_ok_bind]

/-- Addition rebalance, first node: everything is trivial — the new node's
empty container is scanned and nothing moves. -/
theorem add_rebalance_conservation_empty {sm : ShardManager} {fs : FS} {name : String}
    (sm' : ShardManager)
    (hS : sm'.shards_to_idx = dinsert sm.shards_to_idx name (ShardManager._hash sm name))
    (hI : sm'.idx_to_shards = dinsert sm.idx_to_shards (ShardManager._hash sm name) name)
    (hM : sm'.max_limit = sm.max_limit)
    (hwf : WF sm fs)
    (hnil : sm.shards_to_idx = []) :
    ∃ fs' tr, ShardManager._rebalance_data_on_node_addition sm'
        (ShardManager._create_node fs name) name = .ok (fs', tr) ∧
      (clusterRows sm' fs').Perm (clusterRows sm fs) ∧ WF sm' fs' := by
  have hInil : sm.idx_to_shards = [] := by
    cases hidx : sm.idx_to_shards with
    | nil => rfl
    | cons e rest =>
      exfalso
      obtain ⟨p₀, n₀⟩ := e
      have h1 : dlookup sm.idx_to_shards p₀ = some n₀ := by
        rw [hidx, dlookup, if_pos rfl]
      have h2 := (hwf.consistent n₀ p₀).2 h1
      rw [hnil] at h2
      cases h2
  have hS1 : sm'.shards_to_idx = [(name, ShardManager._hash sm name)] := by
    rw [hS, hnil]
    rfl
  have hI1 : sm'.idx_to_shards = [(ShardManager._hash sm name, name)] := by
    rw [hI, hInil]
    rfl
  have hne' : ¬ sm'.shards_to_idx.isEmpty = true := by
    rw [hS1]
    simp
  have hres : ∀ k, ShardManager._find_closest_next_node_for_hash sm' k = .ok name := by
    intro k
    refine @resolve_of_targetPos sm' k (ShardManager._hash sm name) name hne' ?_ ?_
    · rw [hS1]
      exact targetPos_singleton _ _
    · rw [hI1, dlookup, if_pos rfl]
  have hread : ShardManager._read_all_data (ShardManager._create_node fs name) name = [] := by
    refine read_all_of_some ?_
    rw [ShardManager._create_node]
    exact dlookup_dinsert_self ..
  have hreb : ShardManager._rebalance_data_on_node_addition sm'
      (ShardManager._create_node fs name) name
      = .ok (ShardManager._create_node fs name, []) := by
    rw [ShardManager._rebalance_data_on_node_addition, hres, except_ok_bind]
    simp only
    rw [hread]
    rw [show ShardManager.addMoveLoop sm' name [] (ShardManager._create_node fs name)
        = .ok (ShardManager._create_node fs name, [], []) from rfl, except_ok_bind]
    simp only
    rw [show ShardManager.deleteLoop name [] (ShardManager._create_node fs name)
        = .ok (ShardManager._create_node fs name, []) from rfl, except_ok_bind]
    rfl
  refine ⟨ShardManager._create_node fs name, [], hreb, ?_, ?_⟩
  · rw [clusterRows, clusterRows, hS1, hnil]
    simp only [List.map_cons, List.map_nil, List.flatten_cons, List.flatten_nil, List.append_nil]
    rw [hread]
  · constructor
    · rw [hM]
      exact hwf.maxlim
    · rw [hS1]
      simp
    · rw [hI1]
      simp
    · intro n p
      rw [hS1, hI1]
      rw [dlookup_singleton_iff, dlookup_singleton_iff]
      constructor
      · rintro ⟨rfl, rfl⟩
        exact ⟨rfl, rfl⟩
      · rintro ⟨rfl, rfl⟩
        exact ⟨rfl, rfl⟩
    · intro n p hnp
      rw [hS1] at hnp
      obtain ⟨rfl, rfl⟩ := dlookup_singleton_iff.1 hnp
      rw [hash_congr hM]
    · intro n₁ p₁ n₂ p₂ h₁ h₂ hc
      rw [hS1] at h₁ h₂
      obtain ⟨rfl, -⟩ := dlookup_singleton_iff.1 h₁
      obtain ⟨rfl, -⟩ := dlookup_singleton_iff.1 h₂
      rfl
    · intro n p hnp
      rw [hS1] at hnp
      obtain ⟨rfl, rfl⟩ := dlookup_singleton_iff.1 hnp
      rw [ShardManager._create_node, dlookup_dinsert_self]
      rfl
    · intro n p hnp row hrow
      rw [hS1] at hnp
      obtain ⟨rfl, rfl⟩ := dlookup_singleton_iff.1 hnp
      rw [hread] at hrow
      cases hrow

/-- A successful rebalance makes `remove_node` succeed with the erased dicts
and the node's file deleted. -/
theorem remove_node_ok_intro {sm : ShardManager} {fs : FS} {name : String} {p : Nat}
    (hname : dlookup sm.shards_to_idx name = some p) {fs1 : FS} {tr : List Ev}
    (hreb : ShardManager._rebalance_data_on_node_removal sm fs name = .ok (fs1, tr)) :
    ShardManager.remove_node sm fs name
      = .ok ({ shards_to_idx := derase sm.shards_to_idx name
               idx_to_shards := derase sm.idx_to_shards p
               max_limit := sm.max_limit }, ShardManager._delete_node fs1 name, tr) := by
  rw [ShardManager.remove_node, hname]
  simp only
  rw [hreb, except_ok_bind]

/-- Removal: for a well-formed state with at least two members, the removal
rebalance succeeds, and after deleting the departing node's ring entries and
file, the multiset of stored rows is conserved and well-formedness is
re-established. -/
theorem remove_rebalance_conservation {sm : ShardManager} {fs : FS} {name : String} {p : Nat}
    (sm' : ShardManager)
    (hS : sm'.shards_to_idx = derase sm.shards_to_idx name)
    (hI : sm'.idx_to_shards = derase sm.idx_to_shards p)
    (hM : sm'.max_limit = sm.max_limit)
    (hwf : WF sm fs)
    (hname : dlookup sm.shards_to_idx name = some p)
    (hlen2 : 2 ≤ sm.shards_to_idx.length) :
    ∃ fs2 tr, ShardManager._rebalance_data_on_node_removal sm fs name = .ok (fs2, tr) ∧
      (clusterRows sm' (ShardManager._delete_node fs2 name)).Perm (clusterRows sm fs) ∧
      WF sm' (ShardManager._delete_node fs2 name) := by
  have hMpos : 0 < sm.max_limit := by rw [hwf.maxlim]; omega
  have hp : p = ShardManager._hash sm name := hwf.hash_pos name p hname
  have hVperm : (dvalues sm.shards_to_idx).Perm
      (p :: dvalues (derase sm.shards_to_idx name)) := map_derase_perm Prod.snd hname
  have hVrne : dvalues (derase sm.shards_to_idx name) ≠ [] := by
    intro hc
    have hlen := hVperm.length_eq
    rw [hc] at hlen
    rw [dvalues, List.length_map] at hlen
    simp at hlen
    omega
  have hVrlt : ∀ v ∈ dvalues (derase sm.shards_to_idx name), v < sm.max_limit := by
    intro v hv
    exact wf_values_lt hwf v (((derase_sublist sm.shards_to_idx name).map Prod.snd).subset hv)
  have hpVr : p ∉ dvalues (derase sm.shards_to_idx name) := by
    intro hc
    obtain ⟨m, hm⟩ := dvalues_mem_exists hc
    have hm' : (m, p) ∈ sm.shards_to_idx := (derase_sublist _ _).subset hm
    have hlm : dlookup sm.shards_to_idx m = some p := dlookup_of_mem_nodup hm' hwf.shards_nodup
    have hmn : m = name := wf_pos_inj hwf hlm hname
    rw [hmn] at hm
    have h1 : dlookup (derase sm.shards_to_idx name) name = some p :=
      dlookup_of_mem_nodup hm (derase_nodup_fst hwf.shards_nodup _)
    rw [dlookup_derase_self hwf.shards_nodup] at h1
    cases h1
  have hplt : p < sm.max_limit := by
    rw [hp]
    exact hash_lt hMpos name
  obtain ⟨s, hsT, -⟩ := targetPos_total
    (List.cons_ne_nil p (dvalues (derase sm.shards_to_idx name))) ((p + 1) % sm.max_limit)
  obtain ⟨hsV, hsh⟩ := targetPos_next_mem hVrlt hplt hpVr hVrne hsT
  have hsT' : targetPos (dvalues sm.shards_to_idx) ((p + 1) % sm.max_limit) = some s := by
    rw [targetPos_perm hVperm]
    exact hsT
  obtain ⟨nx, hnxmem_d⟩ := dvalues_mem_exists hsV
  have hnxmem : (nx, s) ∈ sm.shards_to_idx := (derase_sublist _ _).subset hnxmem_d
  have hnx : dlookup sm.shards_to_idx nx = some s := dlookup_of_mem_nodup hnxmem hwf.shards_nodup
  have hnxname : nx ≠ name := by
    intro c
    rw [c, hname] at hnx
    injection hnx with hc
    exact hsh hc.symm
  have hneK : ¬ sm.shards_to_idx.isEmpty = true := by
    refine not_isEmpty_of_ne_nil ?_
    intro hc
    rw [hc] at hlen2
    simp at hlen2
  have hres_next : ShardManager._find_closest_next_node_for_hash sm
      ((ShardManager._hash sm name + 1) % sm.max_limit) = .ok nx := by
    rw [← hp]
    exact resolve_of_targetPos hneK hsT' ((hwf.consistent nx s).1 hnx)
  obtain ⟨R, hR⟩ := Option.isSome_iff_exists.1 (hwf.containers name p hname)
  have hReadName : ShardManager._read_all_data fs name = R := read_all_of_some hR
  obtain ⟨Rnx, hRnx⟩ := Option.isSome_iff_exists.1 (hwf.containers nx s hnx)
  have hcfg : ShardManager._get_node_config nx ≠ ShardManager._get_node_config name := by
    intro c
    exact hnxname (hwf.config_inj nx s name p hnx hname c)
  obtain ⟨fs1, tr1, hloop, hcont1, hother1⟩ := removalMoveLoop_run nx R fs Rnx hRnx
  have hfs1name : dlookup fs1 (ShardManager._get_node_config name) = some R := by
    rw [hother1 _ (Ne.symm hcfg)]
    exact hR
  obtain ⟨fs2, tr2, hdloop, hcont2, hother2⟩ :=
    deleteLoop_run name (R.map (fun row => row.headD "")) fs1 R hfs1name
  have hreb : ShardManager._rebalance_data_on_node_removal sm fs name
      = .ok (fs2, tr1 ++ tr2) := by
    rw [ShardManager._rebalance_data_on_node_removal, if_neg (by omega)]
    simp only [hReadName, hres_next, hloop, hdloop, except_ok_bind]
  have hnx_in_d : nx ∈ (derase sm.shards_to_idx name).map Prod.fst :=
    List.mem_map.2 ⟨(nx, s), mem_derase_of_ne hnxmem hnxname, rfl⟩
  have hread3nx : ShardManager._read_all_data (ShardManager._delete_node fs2 name) nx
      = Rnx ++ R := by
    refine read_all_of_some ?_
    rw [ShardManager._delete_node, dlookup_derase_ne _ _ _ hcfg, hother2 _ hcfg, hcont1]
  have hgf : ∀ m, m ∈ (derase sm.shards_to_idx name).map Prod.fst → m ≠ nx →
      ShardManager._read_all_data fs m
        = ShardManager._read_all_data (ShardManager._delete_node fs2 name) m := by
    intro m hm hmnx
    obtain ⟨⟨m', b⟩, hmem, heq⟩ := List.mem_map.1 hm
    cases heq
    have hmem' : (m', b) ∈ sm.shards_to_idx := (derase_sublist _ _).subset hmem
    have hlm : dlookup sm.shards_to_idx m' = some b :=
      dlookup_of_mem_nodup hmem' hwf.shards_nodup
    have hmname : m' ≠ name := by
      intro c
      rw [c] at hmem
      have h1 := dlookup_of_mem_nodup hmem (derase_nodup_fst hwf.shards_nodup _)
      rw [dlookup_derase_self hwf.shards_nodup] at h1
      cases h1
    have hcfgm : ShardManager._get_node_config m' ≠ ShardManager._get_node_config name :=
      fun c => hmname (hwf.config_inj m' b name p hlm hname c)
    have hcfgmnx : ShardManager._get_node_config m' ≠ ShardManager._get_node_config nx :=
      fun c => hmnx (hwf.config_inj m' b nx s hlm hnx c)
    refine read_all_of_dlookup_eq ?_
    rw [ShardManager._delete_node, dlookup_derase_ne _ _ _ hcfgm, hother2 _ hcfgm,
      hother1 _ hcfgmnx]
  have hperm_piece : (ShardManager._read_all_data fs nx ++ R).Perm
      (ShardManager._read_all_data (ShardManager._delete_node fs2 name) nx) := by
    rw [read_all_of_some hRnx, hread3nx]
  have hflat := flatten_update_perm (derase sm.shards_to_idx name)
    (fun m => ShardManager._read_all_data (ShardManager._delete_node fs2 name) m)
    (fun m => ShardManager._read_all_data fs m)
    nx R hgf hperm_piece hnx_in_d (derase_nodup_fst hwf.shards_nodup _)
  have hold : (clusterRows sm fs).Perm
      (R ++ ((derase sm.shards_to_idx name).map
        (fun e => ShardManager._read_all_data fs e.1)).flatten) := by
    rw [clusterRows]
    refine List.Perm.trans
      ((map_derase_perm (fun e => ShardManager._read_all_data fs e.1) hname).flatten) ?_
    rw [List.flatten_cons, hReadName]
  have hne' : ¬ sm'.shards_to_idx.isEmpty = true := by
    rw [hS]
    refine not_isEmpty_of_ne_nil ?_
    intro hc
    exact hVrne (by rw [hc]; rfl)
  have htrans : ∀ (x n' : String) (q : Nat),
      dlookup sm.shards_to_idx n' = some q → n' ≠ name →
      ShardManager._find_closest_next_node_for_key sm x = .ok n' →
      ShardManager._find_closest_next_node_for_key sm' x = .ok n' := by
    intro x n' q hn'q hn'name hold'
    rw [ShardManager._find_closest_next_node_for_key] at hold'
    obtain ⟨q0, hq0T, hq0idx⟩ := resolve_ok_targetPos hneK hold'
    have hq0 : q0 = q := by
      have h1 := (hwf.consistent n' q0).2 hq0idx
      rw [h1] at hn'q
      injection hn'q
    have hqp : q0 ≠ p := by
      intro c
      rw [c] at hq0idx
      have h1 := (hwf.consistent n' p).2 hq0idx
      exact hn'name (wf_pos_inj hwf h1 hname)
    have h1 : targetPos (p :: dvalues (derase sm.shards_to_idx name))
        (ShardManager._hash sm x) = some q0 := by
      rw [← targetPos_perm hVperm]
      exact hq0T
    have h2 := targetPos_cons_ne hVrne h1 hqp
    rw [ShardManager._find_closest_next_node_for_key, hash_congr hM]
    refine @resolve_of_targetPos sm' (ShardManager._hash sm x) q0 n' hne' ?_ ?_
    · rw [hS]
      exact h2
    · rw [hI, dlookup_derase_ne _ _ _ hqp]
      exact hq0idx
  have htransName : ∀ (x : String),
      ShardManager._find_closest_next_node_for_key sm x = .ok name →
      ShardManager._find_closest_next_node_for_key sm' x = .ok nx := by
    intro x hold'
    rw [ShardManager._find_closest_next_node_for_key] at hold'
    obtain ⟨q0, hq0T, hq0idx⟩ := resolve_ok_targetPos hneK hold'
    have hq0p : q0 = p := by
      have h1 := (hwf.consistent name q0).2 hq0idx
      rw [hname] at h1
      injection h1 with c
      exact c.symm
    rw [hq0p] at hq0T
    have h1 : targetPos (p :: dvalues (derase sm.shards_to_idx name))
        (ShardManager._hash sm x) = some p := by
      rw [← targetPos_perm hVperm]
      exact hq0T
    have hA2 := targetPos_cons_self hVrlt hplt hpVr hVrne h1
    rw [hsT] at hA2
    rw [ShardManager._find_closest_next_node_for_key, hash_congr hM]
    refine @resolve_of_targetPos sm' (ShardManager._hash sm x) s nx hne' ?_ ?_
    · rw [hS]
      exact hA2
    · rw [hI, dlookup_derase_ne _ _ _ hsh]
      exact (hwf.consistent nx s).1 hnx
  refine ⟨fs2, tr1 ++ tr2, hreb, ?_, ?_⟩
  · rw [clusterRows, hS]
    refine List.Perm.trans hflat.symm ?_
    refine List.Perm.trans List.perm_append_comm ?_
    exact hold.symm
  · constructor
    · rw [hM]
      exact hwf.maxlim
    · rw [hS]
      exact derase_nodup_fst hwf.shards_nodup _
    · rw [hI]
      exact derase_nodup_fst hwf.idx_nodup _
    · intro n q
      rw [hS, hI]
      by_cases hn : n = name
      · rw [hn]
        refine iff_of_false ?_ ?_
        · rw [dlookup_derase_self hwf.shards_nodup]
          simp
        · intro c
          by_cases hq : q = p
          · rw [hq, dlookup_derase_self hwf.idx_nodup] at c
            cases c
          · rw [dlookup_derase_ne _ _ _ hq] at c
            have h1 := (hwf.consistent name q).2 c
            rw [hname] at h1
            injection h1 with c2
            exact hq c2.symm
      · by_cases hq : q = p
        · rw [hq]
          refine iff_of_false ?_ ?_
          · rw [dlookup_derase_ne _ _ _ hn]
            intro c
            exact hn (wf_pos_inj hwf c hname)
          · rw [dlookup_derase_self hwf.idx_nodup]
            simp
        · rw [dlookup_derase_ne _ _ _ hn, dlookup_derase_ne _ _ _ hq]
          exact hwf.consistent n q
    · intro n q hnq
      rw [hS] at hnq
      by_cases hn : n = name
      · rw [hn, dlookup_derase_self hwf.shards_nodup] at hnq
        cases hnq
      · rw [dlookup_derase_ne _ _ _ hn] at hnq
        rw [hash_congr hM]
        exact hwf.hash_pos n q hnq
    · intro n₁ p₁ n₂ p₂ h₁ h₂ hc
      rw [hS] at h₁ h₂
      by_cases e₁ : n₁ = name
      · rw [e₁, dlookup_derase_self hwf.shards_nodup] at h₁
        cases h₁
      · by_cases e₂ : n₂ = name
        · rw [e₂, dlookup_derase_self hwf.shards_nodup] at h₂
          cases h₂
        · rw [dlookup_derase_ne _ _ _ e₁] at h₁
          rw [dlookup_derase_ne _ _ _ e₂] at h₂
          exact hwf.config_inj n₁ p₁ n₂ p₂ h₁ h₂ hc
    · intro n q hnq
      rw [hS] at hnq
      by_cases hn : n = name
      · rw [hn, dlookup_derase_self hwf.shards_nodup] at hnq
        cases hnq
      · rw [dlookup_derase_ne _ _ _ hn] at hnq
        by_cases hnnx : n = nx
        · rw [hnnx, ShardManager._delete_node, dlookup_derase_ne _ _ _ hcfg,
            hother2 _ hcfg, hcont1]
          rfl
        · have hcfgm : ShardManager._get_node_config n ≠ ShardManager._get_node_config name :=
            fun c => hn (hwf.config_inj n q name p hnq hname c)
          have hcfgmnx : ShardManager._get_node_config n ≠ ShardManager._get_node_config nx :=
            fun c => hnnx (hwf.config_inj n q nx s hnq hnx c)
          rw [ShardManager._delete_node, dlookup_derase_ne _ _ _ hcfgm, hother2 _ hcfgm,
            hother1 _ hcfgmnx]
          exact hwf.containers n q hnq
    · intro n q hnq row hrow
      rw [hS] at hnq
      by_cases hn : n = name
      · rw [hn, dlookup_derase_self hwf.shards_nodup] at hnq
        cases hnq
      · rw [dlookup_derase_ne _ _ _ hn] at hnq
        by_cases hnnx : n = nx
        · rw [hnnx] at hrow ⊢
          rw [hread3nx] at hrow
          rcases List.mem_append.1 hrow with hr | hr
        -- rows that were already on the successor
          · obtain ⟨hlen, hres⟩ := hwf.placement nx s hnx row (by
              rw [read_all_of_some hRnx]
              exact hr)
            exact ⟨hlen, htrans (row.headD "") nx s hnx hnxname hres⟩
        -- rows migrated from the departing node
          · obtain ⟨hlen, hres⟩ := hwf.placement name p hname row (by
              rw [hReadName]
              exact hr)
            exact ⟨hlen, htransName (row.headD "") hres⟩
        · have hm : n ∈ (derase sm.shards_to_idx name).map Prod.fst := by
            refine List.mem_map.2 ⟨(n, q), ?_, rfl⟩
            exact mem_derase_of_ne (dlookup_mem hnq) hn
          rw [← hgf n hm hnnx] at hrow
          obtain ⟨hlen, hres⟩ := hwf.placement n q hnq row hrow
          exact ⟨hlen, htrans (row.headD "") n q hnq hn hres⟩

theorem dlookup_pair_iff {α β : Type} [DecidableEq α] {a c k : α} {b d v : β} :
    dlookup [(a, b), (c, d)] k = some v ↔ (k = a ∧ v = b) ∨ (k ≠ a ∧ k = c ∧ v = d) := by
  by_cases hk : a = k
  · rw [dlookup, if_pos hk]
    constructor
    · intro h
      injection h with h
      exact Or.inl ⟨hk.symm, h.symm⟩
    · rintro (⟨-, rfl⟩ | ⟨hne, -, -⟩)
      · rfl
      · exact absurd hk.symm hne
  · rw [dlookup, if_neg hk, dlookup_singleton_iff]
    constructor
    · rintro ⟨rfl, rfl⟩
      exact Or.inr ⟨fun c' => hk c'.symm, rfl, rfl⟩
    · rintro (⟨rfl, -⟩ | ⟨-, rfl, rfl⟩)
      · exact absurd rfl hk
      · exact ⟨rfl, rfl⟩

/-- The one-node cluster `NodeA` holding record `"hello"` is well formed. -/
theorem wfNodeA : WF smNodeA fsNodeAhello := by
  refine ⟨rfl, by decide, by decide, ?_, ?_, ?_, ?_, ?_⟩
  · intro n p
    show dlookup [("NodeA", 6487)] n = some p ↔ dlookup [(6487, "NodeA")] p = some n
    rw [dlookup_singleton_iff, dlookup_singleton_iff]
    constructor
    · rintro ⟨rfl, rfl⟩
      exact ⟨rfl, rfl⟩
    · rintro ⟨rfl, rfl⟩
      exact ⟨rfl, rfl⟩
  · intro n p hnp
    obtain ⟨rfl, rfl⟩ := dlookup_singleton_iff.1 hnp
    decide
  · intro n₁ p₁ n₂ p₂ h₁ h₂ hc
    obtain ⟨rfl, -⟩ := dlookup_singleton_iff.1 h₁
    obtain ⟨rfl, -⟩ := dlookup_singleton_iff.1 h₂
    rfl
  · intro n p hnp
    obtain ⟨rfl, rfl⟩ := dlookup_singleton_iff.1 hnp
    decide
  · intro n p hnp row hrow
    obtain ⟨rfl, rfl⟩ := dlookup_singleton_iff.1 hnp
    have hread : ShardManager._read_all_data fsNodeAhello "NodeA"
        = [["hello", "w", "2024-10-01"]] := by decide
    rw [hread, List.mem_singleton] at hrow
    rw [hrow]
    exact ⟨by decide, by decide⟩

/-- The empty two-node cluster `NodeA`/`NodeB` is well formed. -/
theorem wfNodeAB : WF smNodeAB fsNodeAB := by
  refine ⟨rfl, by decide, by decide, ?_, ?_, ?_, ?_, ?_⟩
  · intro n p
    show dlookup [("NodeA", 6487), ("NodeB", 346)] n = some p
        ↔ dlookup [(6487, "NodeA"), (346, "NodeB")] p = some n
    rw [dlookup_pair_iff, dlookup_pair_iff]
    constructor
    · rintro (⟨rfl, rfl⟩ | ⟨-, rfl, rfl⟩)
      · exact Or.inl ⟨rfl, rfl⟩
      · exact Or.inr ⟨by decide, rfl, rfl⟩
    · rintro (⟨rfl, rfl⟩ | ⟨-, rfl, rfl⟩)
      · exact Or.inl ⟨rfl, rfl⟩
      · exact Or.inr ⟨by decide, rfl, rfl⟩
  · intro n p hnp
    rcases dlookup_pair_iff.1 hnp with ⟨rfl, rfl⟩ | ⟨-, rfl, rfl⟩
    · decide
    · decide
  · intro n₁ p₁ n₂ p₂ h₁ h₂ hc
    rcases dlookup_pair_iff.1 h₁ with ⟨rfl, rfl⟩ | ⟨-, rfl, rfl⟩ <;>
      rcases dlookup_pair_iff.1 h₂ with ⟨rfl, rfl⟩ | ⟨-, rfl, rfl⟩ <;>
      first | rfl | exact absurd hc (by decide)
  · intro n p hnp
    rcases dlookup_pair_iff.1 hnp with ⟨rfl, rfl⟩ | ⟨-, rfl, rfl⟩
    · decide
    · decide
  · intro n p hnp row hrow
    rcases dlookup_pair_iff.1 hnp with ⟨rfl, rfl⟩ | ⟨-, rfl, rfl⟩
    · have hread : ShardManager._read_all_data fsNodeAB "NodeA" = [] := by decide
      rw [hread] at hrow
      cases hrow
    · have hread : ShardManager._read_all_data fsNodeAB "NodeB" = [] := by decide
      rw [hread] at hrow
      cases hrow

/-- C2: conservation and correct placement under rebalance, corrected. For a
well-formed cluster state: if the added name is absent, its ring position
collides with no member's position and its backing file with no member's
backing file, then `add_node` succeeds, the multiset of stored rows is
conserved (no loss, no duplication), and well-formedness — in particular that
every stored row sits on the node that resolving the hash of its id
designates under the updated ring — is re-established; and if the removed
name is a member and at least two members exist, `remove_node` likewise
succeeds, conserves the rows, and re-establishes well-formedness. Without
the position-freshness proviso the property fails: see the counterexample. -/
theorem C2_rebalance_conservation {sm : ShardManager} {fs : FS}
    (hwf : WF sm fs) (name : String) :
    (dlookup sm.shards_to_idx name = none →
      (∀ n p, dlookup sm.shards_to_idx n = some p → p ≠ ShardManager._hash sm name) →
      (∀ n p, dlookup sm.shards_to_idx n = some p →
        ShardManager._get_node_config n ≠ ShardManager._get_node_config name) →
      ∃ sm' fs' tr, ShardManager.add_node sm fs name = .ok (sm', fs', tr) ∧
        (clusterRows sm' fs').Perm (clusterRows sm fs) ∧ WF sm' fs') ∧
    (∀ p, dlookup sm.shards_to_idx name = some p → 2 ≤ sm.shards_to_idx.length →
      ∃ sm' fs' tr, ShardManager.remove_node sm fs name = .ok (sm', fs', tr) ∧
        (clusterRows sm' fs').Perm (clusterRows sm fs) ∧ WF sm' fs') := by
  constructor
  · intro hfresh hposf hconf
    by_cases hnil : sm.shards_to_idx = []
    · obtain ⟨fs', tr, hreb, hperm, hwf'⟩ := add_rebalance_conservation_empty
        { shards_to_idx := dinsert sm.shards_to_idx name (ShardManager._hash sm name)
          idx_to_shards := dinsert sm.idx_to_shards (ShardManager._hash sm name) name
          max_limit := sm.max_limit } rfl rfl rfl hwf hnil
      exact ⟨_, fs', tr, add_node_ok_intro hfresh hreb, hperm, hwf'⟩
    · obtain ⟨fs', tr, hreb, hperm, hwf'⟩ := add_rebalance_conservation
        { shards_to_idx := dinsert sm.shards_to_idx name (ShardManager._hash sm name)
          idx_to_shards := dinsert sm.idx_to_shards (ShardManager._hash sm name) name
          max_limit := sm.max_limit } rfl rfl rfl hwf hfresh hposf hconf hnil
      exact ⟨_, fs', tr, add_node_ok_intro hfresh hreb, hperm, hwf'⟩
  · intro p hname hlen2
    obtain ⟨fs2, tr, hreb, hperm, hwf'⟩ := remove_rebalance_conservation
      { shards_to_idx := derase sm.shards_to_idx name
        idx_to_shards := derase sm.idx_to_shards p
        max_limit := sm.max_limit } rfl rfl rfl hwf hname hlen2
    exact ⟨_, _, tr, remove_node_ok_intro hname hreb, hperm, hwf'⟩

/-- C2 counterexample to the unconditional claim: `Node91` and `Node145` both
hash to ring position 2360. Starting from the reachable state with member
`Node91` holding record `"rec"`, `add_node "Node145"` succeeds and migrates
nothing; afterwards resolving `"rec"` designates `Node145`, whose container
is empty, while the record still sits on `Node91` — so a record present
before the successful `add_node` is not stored on the node its resolution
designates afterwards, and a `get` for it returns nothing. -/
theorem C2_counterexample :
    ShardManager.add_node smNode91 fsNode91rec "Node145"
      = .ok (smNode91_145, fsNode91_145, []) ∧
    ShardManager._find_closest_next_node_for_key smNode91_145 "rec" = .ok "Node145" ∧
    ShardManager._read_all_data fsNode91_145 "Node145" = [] ∧
    ["rec", "v", "2024-10-01"] ∈ ShardManager._read_all_data fsNode91_145 "Node91" ∧
    ShardManager.get_data smNode91_145 fsNode91_145 "rec" = .ok [] :=
  ⟨by decide, by decide, by decide, by decide, by decide⟩

/-- Witness for C2 at concrete inputs: adding `NodeB` to the one-node cluster
holding record `"hello"`, and removing `NodeB` from the empty two-node
cluster, both succeed conserving the rows and re-establishing `WF`. -/
theorem C2_rebalance_conservation_witness :
    (∃ sm' fs' tr, ShardManager.add_node smNodeA fsNodeAhello "NodeB" = .ok (sm', fs', tr) ∧
      (clusterRows sm' fs').Perm (clusterRows smNodeA fsNodeAhello) ∧ WF sm' fs') ∧
    (∃ sm' fs' tr, ShardManager.remove_node smNodeAB fsNodeAB "NodeB" = .ok (sm', fs', tr) ∧
      (clusterRows sm' fs').Perm (clusterRows smNodeAB fsNodeAB) ∧ WF sm' fs') :=
  ⟨(C2_rebalance_conservation wfNodeA "NodeB").1 (by decide)
      (fun n p hnp => by
        obtain ⟨rfl, rfl⟩ := dlookup_singleton_iff.1 hnp
        decide)
      (fun n p hnp => by
        obtain ⟨rfl, rfl⟩ := dlookup_singleton_iff.1 hnp
        decide),
    (C2_rebalance_conservation wfNodeAB "NodeB").2 346 (by decide) (by decide)⟩
